import Mathlib

/-!
Verification of the crawl-frontier / URL-normalization core of
`find_email_addresses.py` (class `UrlCollection` and the crawl driver).

Strings are modelled as `List Char`; Python's ASCII case folding is modelled
with `Char.toLower` (ASCII-only, like `str.lower` in the C locale).  The
`urlparse` / `urlunparse` functions below are shallow embeddings of the
CPython 2.7 `urlparse` module (the module imported by the source), including
its `ValueError` on unbracketed `[`/`]` in the authority, modelled with
`Except PyErr`.
-/

abbrev Str := List Char

inductive PyErr where
  | valueError : PyErr
  | typeError : PyErr
deriving DecidableEq, Repr

/-- `str.lower` on one character (ASCII case folding, as in Python 2's
byte strings / C locale). -/
def lowChar (c : Char) : Char := c.toLower

/-- `s.lower()`. -/
def pyLower (s : Str) : Str := s.map lowChar

def isPySpace (c : Char) : Bool :=
  decide (c = ' ' ∨ c = '\t' ∨ c = '\n' ∨ c = '\r' ∨ c = '\x0b' ∨ c = '\x0c')

/-- `s.strip()` (whitespace strip on both ends). -/
def pyStrip (s : Str) : Str :=
  ((s.dropWhile isPySpace).reverse.dropWhile isPySpace).reverse

/-- Split a list at the first occurrence of `c` (the Python idiom
`s.split(c, 1)` when `c in s`, with `find` used for the index). -/
def splitFirst (c : Char) : Str → Option (Str × Str)
  | [] => none
  | a :: rest =>
    if a = c then some ([], rest)
    else
      match splitFirst c rest with
      | none => none
      | some (x, y) => some (a :: x, y)

/-- Split a list at the last occurrence of `c` (Python `rfind`). -/
def splitLast (c : Char) (s : Str) : Option (Str × Str) :=
  match splitFirst c s.reverse with
  | none => none
  | some (x, y) => some (y.reverse, x.reverse)

/-- Characters allowed inside a netloc by `_splitnetloc` (everything up to
the first of `/`, `?`, `#`). -/
def netChar (c : Char) : Bool := !(c = '/' || c = '?' || c = '#')

/-- `urlparse._splitnetloc(url, 2)`: the caller guarantees `url[:2] == '//'`;
returns `(url[2:delim], url[delim:])` where `delim` is the first position
`≥ 2` of `/`, `?` or `#`. -/
def splitnetloc2 (url : Str) : Str × Str :=
  ((url.drop 2).takeWhile netChar, (url.drop 2).dropWhile netChar)

/-- The "Invalid IPv6 URL" condition of `urlsplit`. -/
def badBrackets (n : Str) : Bool :=
  decide (('[' ∈ n ∧ ']' ∉ n) ∨ (']' ∈ n ∧ '[' ∉ n))

/-- `scheme_chars` of the `urlparse` module. -/
def isSchemeChar (c : Char) : Bool :=
  decide (('a' ≤ c ∧ c ≤ 'z') ∨ ('A' ≤ c ∧ c ≤ 'Z') ∨ ('0' ≤ c ∧ c ≤ '9')
    ∨ c = '+' ∨ c = '-' ∨ c = '.')

def isDigitCh (c : Char) : Bool := decide ('0' ≤ c ∧ c ≤ '9')

structure SplitResult where
  scheme : Str
  netloc : Str
  path : Str
  query : Str
  fragment : Str
deriving DecidableEq, Repr

/-- The Python pattern `url, rest = url.split(c, 1) if c in url else (url, '')`
used by `urlsplit` for the fragment and query delimiters. -/
def cutAt (c : Char) (u : Str) : Str × Str :=
  match splitFirst c u with
  | some x => x
  | none => (u, [])

/-- The common tail of `urlsplit` (run both by the `http` fast path and by
the general path, with identical code in CPython 2.7): optional netloc
split with the IPv6 bracket check, then fragment split, then query split. -/
def splitTail (scheme url : Str) : Except PyErr SplitResult :=
  let nu : Str × Str :=
    if url.take 2 = ['/', '/'] then splitnetloc2 url else ([], url)
  if badBrackets nu.1 then .error .valueError
  else
    let uf : Str × Str := cutAt '#' nu.2
    let uq : Str × Str := cutAt '?' uf.1
    .ok ⟨scheme, nu.1, uq.1, uq.2, uf.2⟩

/-- CPython 2.7 `urlsplit(url)` (default scheme `''`, `allow_fragments`
true): find the first `:`; take the fast path on an exact `'http'` prefix;
otherwise accept the scheme only if it is made of `scheme_chars` and the
remainder is not a pure port number; otherwise leave the whole string as
the path-bearing part. -/
def urlsplitE (url : Str) : Except PyErr SplitResult :=
  match splitFirst ':' url with
  | none => splitTail [] url
  | some (before, after) =>
    if before = [] then splitTail [] url
    else if before = ('h' :: 't' :: 't' :: 'p' :: []) then splitTail before after
    else if before.all isSchemeChar then
      if after = [] ∨ after.any (fun c => !isDigitCh c) then
        splitTail (pyLower before) after
      else splitTail [] url
    else splitTail [] url

/-- `uses_params` of the `urlparse` module. -/
def usesParams : List Str :=
  [('f' :: 't' :: 'p' :: []), ('h' :: 'd' :: 'l' :: []),
   ('p' :: 'r' :: 'o' :: 's' :: 'p' :: 'e' :: 'r' :: 'o' :: []),
   ('h' :: 't' :: 't' :: 'p' :: []),
   ('i' :: 'm' :: 'a' :: 'p' :: []),
   ('h' :: 't' :: 't' :: 'p' :: 's' :: []),
   ('s' :: 'h' :: 't' :: 't' :: 'p' :: []),
   ('r' :: 't' :: 's' :: 'p' :: []),
   ('r' :: 't' :: 's' :: 'p' :: 'u' :: []),
   ('s' :: 'i' :: 'p' :: []),
   ('s' :: 'i' :: 'p' :: 's' :: []),
   ('m' :: 'm' :: 's' :: []),
   ([] : Str),
   ('s' :: 'f' :: 't' :: 'p' :: []),
   ('t' :: 'e' :: 'l' :: [])]

/-- `urlparse._splitparams`: split off the `;parameters` suffix of the last
path segment. -/
def splitparams (p : Str) : Str × Str :=
  if ('/' : Char) ∈ p then
    match splitLast '/' p with
    | some (x, y) =>
      match splitFirst ';' y with
      | some (a, b) => (x ++ '/' :: a, b)
      | none => (p, [])
    | none => (p, [])
  else
    match splitFirst ';' p with
    | some (a, b) => (a, b)
    | none => (p, [])

structure ParseResult where
  scheme : Str
  netloc : Str
  path : Str
  params : Str
  query : Str
  fragment : Str
deriving DecidableEq, Repr

/-- CPython 2.7 `urlparse(url)`. -/
def urlparseE (url : Str) : Except PyErr ParseResult :=
  match urlsplitE url with
  | .error e => .error e
  | .ok sr =>
    if sr.scheme ∈ usesParams ∧ (';' : Char) ∈ sr.path then
      let pp := splitparams sr.path
      .ok ⟨sr.scheme, sr.netloc, pp.1, pp.2, sr.query, sr.fragment⟩
    else
      .ok ⟨sr.scheme, sr.netloc, sr.path, [], sr.query, sr.fragment⟩

/-- CPython 2.7 `urlunparse((scheme, netloc, path, None, None, None))` —
the only form the source uses; the `None` params/query/fragment are falsy
and contribute nothing. -/
def urlunparse3 (scheme netloc path : Str) : Str :=
  let url :=
    if netloc ≠ [] ∨ path.take 2 = ['/', '/'] then
      let u := if path ≠ [] ∧ path.head? ≠ some '/' then '/' :: path else path
      '/' :: '/' :: (netloc ++ u)
    else path
  if scheme ≠ [] then scheme ++ ':' :: url else url

/-!
## The `UrlCollection` class

`seen_urls` and `emails` are Python sets, modelled as `Finset Str`.
`work_urls` is also a Python set, but the driver observes it only through
`set.pop()`, whose extraction order is unspecified; it is modelled as an
insertion-ordered duplicate-free list, `pop` taking the head — one
resolution of that nondeterminism.
-/

structure UrlCollection where
  root : Str
  base_url : Str
  seen_urls : Finset Str
  work_urls : List Str
  emails : Finset Str
deriving DecidableEq

instance {ε α : Type} [DecidableEq ε] [DecidableEq α] : DecidableEq (Except ε α)
  | .ok a, .ok b =>
    match decEq a b with
    | .isTrue h => .isTrue (h ▸ rfl)
    | .isFalse h => .isFalse (fun hc => h (Except.ok.inj hc))
  | .error a, .error b =>
    match decEq a b with
    | .isTrue h => .isTrue (h ▸ rfl)
    | .isFalse h => .isFalse (fun hc => h (Except.error.inj hc))
  | .ok _, .error _ => .isFalse (fun hc => Except.noConfusion hc)
  | .error _, .ok _ => .isFalse (fun hc => Except.noConfusion hc)

/-- The seed URL as processed by `UrlCollection.__init__`:
`site.strip().lower()`, prefixed with `http://` unless it already starts
with `http`. -/
def processedSeed (site : Str) : Str :=
  let site1 := pyLower (pyStrip site)
  if ('h' :: 't' :: 't' :: 'p' :: []).isPrefixOf site1 then site1
  else ('h' :: 't' :: 't' :: 'p' :: ':' :: '/' :: '/' :: []) ++ site1

/-- `UrlCollection.__init__(site)`. -/
def UrlCollection.init (site : Str) : Except PyErr UrlCollection :=
  let site2 := processedSeed site
  match urlparseE site2 with
  | .error e => .error e
  | .ok p =>
    .ok { root := p.netloc
        , base_url := p.scheme ++ ':' :: '/' :: '/' :: p.netloc
        , seen_urls := {site2}
        , work_urls := [site2]
        , emails := ∅ }

/-- `UrlCollection.in_root_domain(url)`: `urlparse(url).netloc.endswith(self.root)`. -/
def UrlCollection.in_root_domain (uc : UrlCollection) (url : Str) : Except PyErr Bool :=
  match urlparseE url with
  | .error e => .error e
  | .ok p => .ok (uc.root.isSuffixOf p.netloc)

/-- `UrlCollection.should_parse(url)`: `url and self.in_root_domain(url)`;
the argument is a `normalize` result (`None` or a string), and Python's
truthiness makes `None` and `''` short-circuit to false. -/
def UrlCollection.should_parse (uc : UrlCollection) (url : Option Str) : Except PyErr Bool :=
  match url with
  | none => .ok false
  | some u => if u = [] then .ok false else uc.in_root_domain u

/-- `UrlCollection.should_add(url)`:
`url and (url not in self.seen_urls) and self.in_root_domain(url)`. -/
def UrlCollection.should_add (uc : UrlCollection) (url : Option Str) : Except PyErr Bool :=
  match url with
  | none => .ok false
  | some u =>
    if u = [] then .ok false
    else if u ∈ uc.seen_urls then .ok false
    else uc.in_root_domain u

/-- `UrlCollection.normalize(url)`: `None` for falsy input; resolve a
path-absolute link against `base_url`; lower-case; require the literal
prefix `http`; parse and re-assemble keeping only scheme, netloc, path. -/
def UrlCollection.normalize (uc : UrlCollection) (url : Str) : Except PyErr (Option Str) :=
  if url = [] then .ok none
  else
    let url1 := if url.head? = some '/' then uc.base_url ++ url else url
    let url2 := pyLower url1
    if ('h' :: 't' :: 't' :: 'p' :: []).isPrefixOf url2 then
      match urlparseE url2 with
      | .error e => .error e
      | .ok p => .ok (some (urlunparse3 p.scheme p.netloc p.path))
    else .ok none

/-- `UrlCollection.add_url(url)`: normalize, test `should_add`, and on
success insert the normalized URL into both `seen_urls` and `work_urls`.
A `ValueError` escaping `urlparse` propagates (as in the source). -/
def UrlCollection.add_url (uc : UrlCollection) (url : Str) : Except PyErr UrlCollection :=
  match uc.normalize url with
  | .error e => .error e
  | .ok n =>
    match uc.should_add n with
    | .error e => .error e
    | .ok b =>
      if b then
        match n with
        | some u =>
          .ok { uc with
                seen_urls := insert u uc.seen_urls
              , work_urls := if u ∈ uc.work_urls then uc.work_urls else uc.work_urls ++ [u] }
        | none => .ok uc
      else .ok uc

/-- `UrlCollection.add_email(email)`: `self.emails.add(str(email))`. -/
def UrlCollection.add_email (uc : UrlCollection) (email : Str) : UrlCollection :=
  { uc with emails := insert email uc.emails }

/-- `UrlCollection.next()`: pop a pending URL, or signal `StopIteration`
(`none`). -/
def UrlCollection.next (uc : UrlCollection) : Option (Str × UrlCollection) :=
  match uc.work_urls with
  | [] => none
  | u :: rest => some (u, { uc with work_urls := rest })

/-!
## The crawl driver

`DriverParser.load_and_parse` is driven by an abstract fetch outcome per
URL: either the page load failed (`WebDriverException` in `get`/wait), or
it produced a final (post-redirect) URL, the list of `href` values, and
the result of `parse_emails` — which is `None` (modelled `none`) when the
body lookup raised `WebDriverException`, since `parse_emails` swallows the
exception and falls off the end of the function.
-/

inductive FetchOutcome where
  | fail : FetchOutcome
  | page : Str → List Str → Option (List Str) → FetchOutcome

/-- `DriverParser.load_and_parse(uc, url)` given the fetch outcome for
`url`: returns `[]` on load failure; drops pages whose final URL fails
`should_parse`; otherwise `map(uc.add_url, ...)` over the links and
returns `parse_emails()`'s result. -/
def load_and_parse (uc : UrlCollection) (outcome : FetchOutcome) :
    Except PyErr (UrlCollection × Option (List Str)) :=
  match outcome with
  | .fail => .ok (uc, some [])
  | .page finalUrl links body =>
    match uc.normalize finalUrl with
    | .error e => .error e
    | .ok n =>
      match uc.should_parse n with
      | .error e => .error e
      | .ok b =>
        if b then
          match links.foldlM UrlCollection.add_url uc with
          | .error e => .error e
          | .ok uc2 => .ok (uc2, body)
        else .ok (uc, some [])

/-- The value of `main`'s `reduce`: Python's `reduce` over a one-element
list returns the element itself (here the raw `parse_emails` result, a
list or `None`); with two or more elements everything is converted
through `set(...)` and unioned. -/
inductive EmailsVal where
  | raw : Option (List Str) → EmailsVal
  | set : Finset Str → EmailsVal
deriving DecidableEq

/-- Python `set(x)` on a `parse_emails` result: `set(None)` raises
`TypeError`. -/
def pySet : Option (List Str) → Except PyErr (Finset Str)
  | none => .error .typeError
  | some l => .ok l.toFinset

def pySetE : EmailsVal → Except PyErr (Finset Str)
  | .raw x => pySet x
  | .set s => .ok s

/-- `reduce(lambda x, y: set(x).union(set(y)), results)`. -/
def reduceUnion (l : List (Option (List Str))) : Except PyErr EmailsVal :=
  match l with
  | [] => .error .typeError
  | x :: rest =>
    if rest = [] then .ok (.raw x)
    else
      rest.foldlM (fun acc y =>
        match pySetE acc with
        | .error e => .error e
        | .ok sa =>
          match pySet y with
          | .error e => .error e
          | .ok sy => .ok (.set (sa ∪ sy))) (.raw x)

/-- The `map(lambda url: dp.load_and_parse(uc, url), uc)` loop of `main`:
Python 2's eager `map` keeps pulling from the `UrlCollection` iterator —
which pops `work_urls` — until `StopIteration`, collecting the per-URL
results in order.  `fuel` bounds the (possibly unbounded) loop; `none`
means the fuel ran out before the frontier drained. -/
def crawlLoop (oracle : Str → FetchOutcome) :
    Nat → UrlCollection → List (Option (List Str)) →
    Option (Except PyErr (UrlCollection × List (Option (List Str))))
  | 0, _, _ => none
  | Nat.succ fuel, uc, acc =>
    match uc.work_urls with
    | [] => some (.ok (uc, acc.reverse))
    | u :: rest =>
      match load_and_parse { uc with work_urls := rest } (oracle u) with
      | .error e => some (.error e)
      | .ok (uc2, r) => crawlLoop oracle fuel uc2 (r :: acc)

/-- `main` for a given seed and fetch oracle: build the `UrlCollection`,
run the crawl loop, and reduce the collected per-URL results.  Also
returns the final frontier so its `emails` set can be observed. -/
def mainRun (site : Str) (oracle : Str → FetchOutcome) (fuel : Nat) :
    Option (Except PyErr (EmailsVal × UrlCollection)) :=
  match UrlCollection.init site with
  | .error e => some (.error e)
  | .ok uc0 =>
    match crawlLoop oracle fuel uc0 [] with
    | none => none
    | some (.error e) => some (.error e)
    | some (.ok (ucF, results)) =>
      match reduceUnion results with
      | .error e => some (.error e)
      | .ok v => some (.ok (v, ucF))

/-!
## Call sequences against a frontier

For the state invariants the frontier is exercised by arbitrary sequences
of its operations.  A raised `ValueError` leaves the object unchanged
(`add_url` mutates nothing before `normalize` returns), as does popping
an empty frontier (`StopIteration`).
-/

inductive Op where
  | addUrl : Str → Op
  | addEmail : Str → Op
  | popNext : Op

def applyOp (uc : UrlCollection) : Op → UrlCollection
  | .addUrl u =>
    match uc.add_url u with
    | .ok uc2 => uc2
    | .error _ => uc
  | .addEmail e => uc.add_email e
  | .popNext =>
    match uc.next with
    | some (_, uc2) => uc2
    | none => uc

def runOps (uc : UrlCollection) (ops : List Op) : UrlCollection :=
  ops.foldl applyOp uc

/-! ## Helper notions used by the verification -/

abbrev httpL : Str := ['h', 't', 't', 'p']

/-- All characters of a lower-cased string are fixed by `lowChar`. -/
def LowerOK (l : Str) : Prop := ∀ c ∈ l, lowChar c = c

/-- The last `/`-separated segment of a path (the part `_splitparams`
searches for `;`). -/
def lastSeg (p : Str) : Str :=
  match splitLast '/' p with
  | some x => x.2
  | none => p

/-- Applying `normalize` to a previous `normalize` result: `normalize(None)`
returns `None` because `None` is falsy. -/
def normalizeOpt (uc : UrlCollection) : Option Str → Except PyErr (Option Str)
  | none => .ok none
  | some v => uc.normalize v

/-- Every URL recorded in `seen_urls` is a fixed point of `normalize` —
the key invariant behind "no two seen URLs normalize to the same value". -/
def SeenFixed (uc : UrlCollection) : Prop :=
  ∀ x ∈ uc.seen_urls, uc.normalize x = .ok (some x)

/-- `"http:"` or `"https:"` leads the string: the spec reading of
"starts with a recognized http/https scheme". -/
abbrev startsRecognizedScheme (s : Str) : Prop :=
  ('h' :: 't' :: 't' :: 'p' :: ':' :: []) <+: s
  ∨ ('h' :: 't' :: 't' :: 'p' :: 's' :: ':' :: []) <+: s

/-- What `urlsplitE` guarantees about its output on a lower-cased,
`http`-prefixed input. -/
structure SplitInv (w : Str) (sr : SplitResult) : Prop where
  lowNet : LowerOK sr.netloc
  lowPath : LowerOK sr.path
  netOK : ∀ c ∈ sr.netloc, netChar c = true
  brackOK : badBrackets sr.netloc = false
  noHash : '#' ∉ sr.path
  noQuest : '?' ∉ sr.path
  schemeCase :
      (sr.scheme ≠ [] ∧ (∀ c ∈ sr.scheme, isSchemeChar c = true)
        ∧ LowerOK sr.scheme ∧ httpL <+: sr.scheme
        ∧ (sr.netloc ≠ [] ∨ sr.path.take 2 = ['/', '/'] →
            sr.path = [] ∨ ∃ t, sr.path = '/' :: t))
    ∨ (sr.scheme = [] ∧ sr.netloc = []
        ∧ httpL <+: sr.path
        ∧ (∃ t, w = sr.path ++ t
            ∧ (t = [] ∨ ∃ c t', t = c :: t' ∧ (c = '#' ∨ c = '?')))
        ∧ ((':' : Char) ∉ w
           ∨ (∃ b a, w = b ++ ':' :: a ∧ (':' : Char) ∉ b ∧ b ≠ []
               ∧ ¬ b.all isSchemeChar = true)
           ∨ (∃ b a, w = b ++ ':' :: a ∧ (':' : Char) ∉ b ∧ b ≠ [] ∧ b ≠ httpL
               ∧ b.all isSchemeChar = true ∧ a ≠ []
               ∧ ∀ c ∈ a, isDigitCh c = true)))

/-- Everything the reflexive second parse needs to know about the result of
parsing a lower-cased, `http`-prefixed string. -/
structure ParseInv (w : Str) (P : ParseResult) : Prop where
  lowNet : LowerOK P.netloc
  lowPath : LowerOK P.path
  netOK : ∀ c ∈ P.netloc, netChar c = true
  brackOK : badBrackets P.netloc = false
  noHash : '#' ∉ P.path
  noQuest : '?' ∉ P.path
  noParams : P.scheme ∈ usesParams → (';' : Char) ∉ lastSeg P.path
  schemeCase :
      (P.scheme ≠ [] ∧ (∀ c ∈ P.scheme, isSchemeChar c = true)
        ∧ LowerOK P.scheme ∧ httpL <+: P.scheme
        ∧ (P.netloc ≠ [] ∨ P.path.take 2 = ['/', '/'] →
            P.path = [] ∨ ∃ t, P.path = '/' :: t))
    ∨ (P.scheme = [] ∧ P.netloc = []
        ∧ httpL <+: P.path
        ∧ (∃ t, w = P.path ++ t
            ∧ (t = [] ∨ ∃ c t', t = c :: t' ∧ (c = '#' ∨ c = '?' ∨ c = ';')))
        ∧ ((':' : Char) ∉ w
           ∨ (∃ b a, w = b ++ ':' :: a ∧ (':' : Char) ∉ b ∧ b ≠ []
               ∧ ¬ b.all isSchemeChar = true)
           ∨ (∃ b a, w = b ++ ':' :: a ∧ (':' : Char) ∉ b ∧ b ≠ [] ∧ b ≠ httpL
               ∧ b.all isSchemeChar = true ∧ a ≠ []
               ∧ ∀ c ∈ a, isDigitCh c = true)))

/-! ## Concrete instances used by the claim checks -/

/-- The frontier `UrlCollection('example.com')` constructs. -/
def ucEx : UrlCollection :=
  ⟨("example.com").toList, ("http://example.com").toList,
   {("http://example.com").toList}, [("http://example.com").toList], ∅⟩

/-- `ucEx` after `add_url('http://example.com/')`: the slash-less and
slashed forms of the site root live side by side. -/
def ucExSlash : UrlCollection :=
  ⟨("example.com").toList, ("http://example.com").toList,
   insert (("http://example.com/").toList) {("http://example.com").toList},
   [("http://example.com").toList, ("http://example.com/").toList], ∅⟩

/-- The frontier `UrlCollection('http://example.com/p?x=1')` constructs:
the seed is stored with its query string, un-normalized. -/
def ucQuery : UrlCollection :=
  ⟨("example.com").toList, ("http://example.com").toList,
   {("http://example.com/p?x=1").toList},
   [("http://example.com/p?x=1").toList], ∅⟩

/-- `ucQuery` after re-adding the seed URL: the normalized form joins the
raw seed in `seen_urls`. -/
def ucQuery2 : UrlCollection :=
  ⟨("example.com").toList, ("http://example.com").toList,
   insert (("http://example.com/p").toList)
     {("http://example.com/p?x=1").toList},
   [("http://example.com/p?x=1").toList, ("http://example.com/p").toList], ∅⟩

/-- The frontier `UrlCollection('jana.com')` constructs. -/
def ucJana : UrlCollection :=
  ⟨("jana.com").toList, ("http://jana.com").toList,
   {("http://jana.com").toList}, [("http://jana.com").toList], ∅⟩

/-- `ucJana` after `add_url('http://jana.com/b')`. -/
def ucJana2 : UrlCollection :=
  ⟨("jana.com").toList, ("http://jana.com").toList,
   insert (("http://jana.com/b").toList) {("http://jana.com").toList},
   [("http://jana.com").toList, ("http://jana.com/b").toList], ∅⟩

/-- Fetch oracle for a one-page site: the seed page renders one mail
address and no links; everything else fails to load. -/
def oracleOnePage (u : Str) : FetchOutcome :=
  if u = ("http://example.com").toList then
    .page (("http://example.com").toList) [] (some [("a@b.com").toList])
  else .fail

/-- Fetch oracle for the crash scenario: the seed page loads and links to
one more page, but reading its body raises `WebDriverException` (so
`parse_emails` returns `None`); the linked page fails to load. -/
def oracleBodyFail (u : Str) : FetchOutcome :=
  if u = ("http://example.com").toList then
    .page (("http://example.com").toList)
      [("http://example.com/a").toList] none
  else .fail

/-! ## Basic lemmas about the string primitives -/

theorem isPrefixOf_eq_true_iff {a b : Str} : a.isPrefixOf b = true ↔ a <+: b :=
  List.isPrefixOf_iff_prefix


theorem splitFirst_eq_none_iff {c : Char} {l : Str} : splitFirst c l = none ↔ c ∉ l := by
  induction l with
  | nil => simp [splitFirst]
  | cons a rest ih =>
    by_cases h : a = c
    · subst h
      simp [splitFirst]
    · simp only [splitFirst, if_neg h]
      cases hr : splitFirst c rest with
      | none => simp only [List.mem_cons]; tauto
      | some xy =>
        constructor
        · intro hh; cases hh
        · intro hm
          exfalso
          have : c ∉ rest := by
            intro hc
            exact hm (List.mem_cons_of_mem _ hc)
          rw [ih.mpr this] at hr
          cases hr

theorem splitFirst_eq_some {c : Char} {l x y : Str}
    (h : splitFirst c l = some (x, y)) : l = x ++ c :: y ∧ c ∉ x := by
  induction l generalizing x y with
  | nil => simp [splitFirst] at h
  | cons a rest ih =>
    by_cases ha : a = c
    · subst ha
      simp [splitFirst] at h
      obtain ⟨hx, hy⟩ := h
      subst hx; subst hy
      simp
    · simp only [splitFirst, if_neg ha] at h
      cases hr : splitFirst c rest with
      | none => rw [hr] at h; cases h
      | some xy =>
        rw [hr] at h
        obtain ⟨x', y'⟩ := xy
        simp only [Option.some.injEq, Prod.mk.injEq] at h
        obtain ⟨hx, hy⟩ := h
        obtain ⟨hrest, hnx⟩ := ih hr
        subst hy
        rw [← hx]
        constructor
        · rw [hrest]; rfl
        · intro hm
          rcases List.mem_cons.mp hm with h1 | h2
          · exact ha h1.symm
          · exact hnx h2

theorem splitFirst_append_cons {c : Char} {x y : Str} (hx : c ∉ x) :
    splitFirst c (x ++ c :: y) = some (x, y) := by
  induction x with
  | nil => simp [splitFirst]
  | cons a t ih =>
    have ha : a ≠ c := fun h => hx (h ▸ List.mem_cons_self a t)
    have ht : c ∉ t := fun h => hx (List.mem_cons_of_mem _ h)
    simp only [List.cons_append, splitFirst, if_neg ha]
    have hrw : splitFirst c (t.append (c :: y)) = some (t, y) := ih ht
    rw [hrw]

theorem first_decomp_unique {c : Char} {x₁ y₁ x₂ y₂ : Str}
    (h : x₁ ++ c :: y₁ = x₂ ++ c :: y₂) (h1 : c ∉ x₁) (h2 : c ∉ x₂) :
    x₁ = x₂ ∧ y₁ = y₂ := by
  have e1 := splitFirst_append_cons (y := y₁) h1
  have e2 := splitFirst_append_cons (y := y₂) h2
  rw [h] at e1
  rw [e2] at e1
  simpa using e1.symm

theorem splitLast_eq_some {c : Char} {l x y : Str}
    (h : splitLast c l = some (x, y)) : l = x ++ c :: y ∧ c ∉ y := by
  unfold splitLast at h
  cases hr : splitFirst c l.reverse with
  | none => rw [hr] at h; cases h
  | some xy =>
    rw [hr] at h
    obtain ⟨x', y'⟩ := xy
    simp only [Option.some.injEq, Prod.mk.injEq] at h
    obtain ⟨hx, hy⟩ := h
    obtain ⟨hrev, hnx⟩ := splitFirst_eq_some hr
    constructor
    · have := congrArg List.reverse hrev
      simp only [List.reverse_reverse, List.reverse_append, List.reverse_cons] at this
      rw [this, ← hx, ← hy]
      simp
    · rw [← hy]
      simpa using hnx

theorem splitLast_eq_none_iff {c : Char} {l : Str} : splitLast c l = none ↔ c ∉ l := by
  unfold splitLast
  cases hr : splitFirst c l.reverse with
  | none =>
    have := splitFirst_eq_none_iff.mp hr
    simp only [List.mem_reverse] at this
    simpa using this
  | some xy =>
    obtain ⟨x, y⟩ := xy
    obtain ⟨hrev, _⟩ := splitFirst_eq_some hr
    simp only []
    constructor
    · intro hh; cases hh
    · intro hm
      exfalso
      apply hm
      have : c ∈ l.reverse := by rw [hrev]; simp
      simpa using this

theorem splitLast_append_cons {c : Char} {x y : Str} (hy : c ∉ y) :
    splitLast c (x ++ c :: y) = some (x, y) := by
  unfold splitLast
  have : (x ++ c :: y).reverse = y.reverse ++ c :: x.reverse := by simp
  rw [this, splitFirst_append_cons (by simpa using hy)]
  simp

theorem takeWhile_all_append {q : Char → Bool} {xs ys : Str}
    (h : ∀ a ∈ xs, q a = true) :
    (xs ++ ys).takeWhile q = xs ++ ys.takeWhile q := by
  induction xs with
  | nil => simp
  | cons a t ih =>
    have ha := h a (List.mem_cons_self a t)
    simp only [List.cons_append, List.takeWhile_cons, ha]
    simp only [if_true]
    rw [ih (fun b hb => h b (List.mem_cons_of_mem _ hb))]

theorem dropWhile_all_append {q : Char → Bool} {xs ys : Str}
    (h : ∀ a ∈ xs, q a = true) :
    (xs ++ ys).dropWhile q = ys.dropWhile q := by
  induction xs with
  | nil => simp
  | cons a t ih =>
    have ha := h a (List.mem_cons_self a t)
    simp only [List.cons_append, List.dropWhile_cons, ha]
    simp only [if_true]
    exact ih (fun b hb => h b (List.mem_cons_of_mem _ hb))

theorem takeWhile_head_false {q : Char → Bool} {b : Char} {t : Str}
    (h : q b = false) : (b :: t).takeWhile q = [] := by
  simp [List.takeWhile_cons, h]

theorem dropWhile_head_false {q : Char → Bool} {b : Char} {t : Str}
    (h : q b = false) : (b :: t).dropWhile q = b :: t := by
  simp [List.dropWhile_cons, h]

theorem dropWhile_shape (q : Char → Bool) (l : Str) :
    l.dropWhile q = [] ∨ ∃ b t, l.dropWhile q = b :: t ∧ q b = false := by
  induction l with
  | nil => simp
  | cons a t ih =>
    by_cases h : q a = true
    · simpa [List.dropWhile_cons, h] using ih
    · right
      exact ⟨a, t, by simp [List.dropWhile_cons, h], by simpa using h⟩

theorem splitnetloc2_eval {n p : Str} (hn : ∀ c ∈ n, netChar c = true)
    (hp : p = [] ∨ ∃ t, p = '/' :: t) :
    splitnetloc2 ('/' :: '/' :: (n ++ p)) = (n, p) := by
  have hdrop : (('/' : Char) :: '/' :: (n ++ p)).drop 2 = n ++ p := rfl
  unfold splitnetloc2
  rw [hdrop, takeWhile_all_append hn, dropWhile_all_append hn]
  rcases hp with h | ⟨t, ht⟩
  · subst h; simp
  · subst ht
    rw [takeWhile_head_false (by rfl), dropWhile_head_false (by rfl)]
    simp

theorem lowChar_idem (c : Char) : lowChar (lowChar c) = lowChar c := by
  unfold lowChar Char.toLower
  by_cases h : c.toNat ≥ 65 ∧ c.toNat ≤ 90
  · rw [if_pos h]
    have hv : (c.toNat + 32).isValidChar := Or.inl (by omega)
    have ht : (Char.ofNat (c.toNat + 32)).toNat = c.toNat + 32 := by
      unfold Char.ofNat
      rw [dif_pos hv]
      rfl
    rw [ht]
    have hne : ¬(c.toNat + 32 ≥ 65 ∧ c.toNat + 32 ≤ 90) := by omega
    rw [if_neg hne]
  · rw [if_neg h, if_neg h]

/-! ## Lemmas about `cutAt`, prefixes, and character classes -/

theorem cutAt_fst_not_mem (c : Char) (u : Str) : c ∉ (cutAt c u).1 := by
  unfold cutAt
  cases h : splitFirst c u with
  | none => simpa using splitFirst_eq_none_iff.mp h
  | some xy =>
    obtain ⟨x, y⟩ := xy
    simpa using (splitFirst_eq_some h).2

theorem cutAt_decomp (c : Char) (u : Str) :
    ∃ t, u = (cutAt c u).1 ++ t ∧ (t = [] ∨ ∃ t', t = c :: t') := by
  unfold cutAt
  cases h : splitFirst c u with
  | none => exact ⟨[], by simp⟩
  | some xy =>
    obtain ⟨x, y⟩ := xy
    exact ⟨c :: y, (splitFirst_eq_some h).1, Or.inr ⟨y, rfl⟩⟩

theorem cutAt_prefix_fst (c : Char) (u : Str) : (cutAt c u).1 <+: u := by
  obtain ⟨t, ht, _⟩ := cutAt_decomp c u
  exact ⟨t, ht.symm⟩

theorem cutAt_not_mem {c d : Char} {u : Str} (h : d ∉ u) : d ∉ (cutAt c u).1 :=
  fun hm => h ((cutAt_prefix_fst c u).sublist.mem hm)

theorem cutAt_of_not_mem {c : Char} {u : Str} (h : c ∉ u) : cutAt c u = (u, []) := by
  unfold cutAt
  rw [splitFirst_eq_none_iff.mpr h]

theorem prefix_cons_shape {x : Str} {b : Char} {t : Str} (h : x <+: b :: t) :
    x = [] ∨ ∃ t', x = b :: t' := by
  cases x with
  | nil => exact Or.inl rfl
  | cons a r =>
    obtain ⟨w, hw⟩ := h
    right
    injection hw with h1 h2
    exact ⟨r, by rw [h1]⟩

theorem prefix_snoc {q x : Str} {c : Char} (h : q <+: x ++ [c]) (hc : c ∉ q) :
    q <+: x := by
  obtain ⟨r, hr⟩ := h
  cases r with
  | nil =>
    exfalso
    apply hc
    rw [List.append_nil] at hr
    rw [hr]
    simp
  | cons a t =>
    have hx : x <+: x ++ [c] := ⟨[c], rfl⟩
    have hq : q <+: x ++ [c] := ⟨a :: t, hr⟩
    rcases List.prefix_or_prefix_of_prefix hq hx with h1 | h1
    · exact h1
    · have hlen : q.length + (a :: t).length = x.length + 1 := by
        have := congrArg List.length hr
        simpa using this
      have : x.length ≤ q.length := h1.length_le
      have : q.length ≤ x.length := by
        have : (a :: t).length ≥ 1 := by simp
        omega
      exact (h1.eq_of_length_le (by omega)) ▸ List.prefix_rfl

theorem cut_keeps_http {x y : Str} {c : Char} (hpre : httpL <+: (x ++ c :: y))
    (hc : c ∉ httpL) : httpL <+: x := by
  have hx : x ++ [c] <+: x ++ c :: y := ⟨y, by simp⟩
  rcases List.prefix_or_prefix_of_prefix hpre hx with h1 | h1
  · exact prefix_snoc h1 hc
  · exfalso
    exact hc (h1.sublist.mem (by simp))

theorem lowerOK_pyLower (u : Str) : LowerOK (pyLower u) := by
  intro c hc
  obtain ⟨a, _, ha⟩ := List.mem_map.mp hc
  rw [← ha]
  exact lowChar_idem a

theorem pyLower_eq_self {l : Str} (h : LowerOK l) : pyLower l = l := by
  induction l with
  | nil => rfl
  | cons a t ih =>
    have ha := h a (List.mem_cons_self a t)
    have ht : LowerOK t := fun c hc => h c (List.mem_cons_of_mem _ hc)
    simp only [pyLower, List.map_cons] at *
    rw [ha, ih ht]

theorem lowerOK_of_sub {a b : Str} (hb : LowerOK b) (hs : ∀ c ∈ a, c ∈ b) :
    LowerOK a := fun c hc => hb c (hs c hc)

theorem lowerOK_append {a b : Str} (ha : LowerOK a) (hb : LowerOK b) :
    LowerOK (a ++ b) := by
  intro c hc
  rcases List.mem_append.mp hc with h | h
  · exact ha c h
  · exact hb c h

theorem lowerOK_cons {c : Char} {t : Str} (hc : lowChar c = c) (ht : LowerOK t) :
    LowerOK (c :: t) := by
  intro d hd
  rcases List.mem_cons.mp hd with h | h
  · rw [h]; exact hc
  · exact ht d h

theorem schemeChar_ne {c : Char} (h : isSchemeChar c = true) :
    c ≠ ':' ∧ c ≠ '/' ∧ c ≠ '#' ∧ c ≠ '?' ∧ c ≠ ';' := by
  refine ⟨?_, ?_, ?_, ?_, ?_⟩ <;> (intro he; subst he; revert h; decide)

theorem digitCh_ne {c : Char} (h : isDigitCh c = true) :
    c ≠ '#' ∧ c ≠ '?' ∧ c ≠ ';' := by
  refine ⟨?_, ?_, ?_⟩ <;> (intro he; subst he; revert h; decide)

theorem netChar_false_cases {c : Char} (h : netChar c = false) :
    c = '/' ∨ c = '?' ∨ c = '#' := by
  by_cases h1 : c = '/'
  · exact Or.inl h1
  by_cases h2 : c = '?'
  · exact Or.inr (Or.inl h2)
  by_cases h3 : c = '#'
  · exact Or.inr (Or.inr h3)
  exfalso
  simp [netChar, h1, h2, h3] at h

theorem take2_ne_slashes {u : Str} (h : u.head? ≠ some '/') :
    u.take 2 ≠ ['/', '/'] := by
  cases u with
  | nil => simp
  | cons a t =>
    intro hc
    apply h
    simp only [List.take_succ_cons] at hc
    injection hc with h1 _
    simp [h1]

theorem head_append_ne {s r : Str} (hs : s ≠ []) (h : s.head? ≠ some '/') :
    (s ++ r).head? ≠ some '/' := by
  cases s with
  | nil => exact absurd rfl hs
  | cons a t => simpa using h

theorem http_prefix_head {v : Str} (h : httpL <+: v) : v.head? = some 'h' := by
  obtain ⟨r, hr⟩ := h
  rw [← hr]
  rfl

/-! ## Evaluation lemmas for `splitTail`, `splitparams` and `urlparseE` -/

theorem badBrackets_nil : badBrackets [] = false := by decide

theorem splitTail_plain {s u : Str} (h : ¬ u.take 2 = ['/', '/']) :
    splitTail s u =
      .ok ⟨s, [], (cutAt '?' (cutAt '#' u).1).1, (cutAt '?' (cutAt '#' u).1).2,
           (cutAt '#' u).2⟩ := by
  unfold splitTail
  rw [if_neg h]
  dsimp only
  rw [badBrackets_nil]
  simp

theorem splitTail_netloc {s u : Str} (h : u.take 2 = ['/', '/'])
    (hb : badBrackets (splitnetloc2 u).1 = false) :
    splitTail s u =
      .ok ⟨s, (splitnetloc2 u).1,
           (cutAt '?' (cutAt '#' (splitnetloc2 u).2).1).1,
           (cutAt '?' (cutAt '#' (splitnetloc2 u).2).1).2,
           (cutAt '#' (splitnetloc2 u).2).2⟩ := by
  unfold splitTail
  rw [if_pos h]
  dsimp only
  rw [hb]
  simp

theorem splitTail_ok_netloc {s u : Str} {sr : SplitResult}
    (hu : u.take 2 = ['/', '/']) (h : splitTail s u = .ok sr) :
    badBrackets (splitnetloc2 u).1 = false ∧
    sr = ⟨s, (splitnetloc2 u).1,
          (cutAt '?' (cutAt '#' (splitnetloc2 u).2).1).1,
          (cutAt '?' (cutAt '#' (splitnetloc2 u).2).1).2,
          (cutAt '#' (splitnetloc2 u).2).2⟩ := by
  by_cases hb : badBrackets (splitnetloc2 u).1 = true
  · exfalso
    unfold splitTail at h
    rw [if_pos hu] at h
    dsimp only at h
    rw [hb] at h
    simp at h
  · have hb' : badBrackets (splitnetloc2 u).1 = false := by simpa using hb
    refine ⟨hb', ?_⟩
    rw [splitTail_netloc hu hb'] at h
    injection h with h
    exact h.symm

theorem splitTail_ok_plain {s u : Str} {sr : SplitResult}
    (hu : ¬ u.take 2 = ['/', '/']) (h : splitTail s u = .ok sr) :
    sr = ⟨s, [], (cutAt '?' (cutAt '#' u).1).1, (cutAt '?' (cutAt '#' u).1).2,
          (cutAt '#' u).2⟩ := by
  rw [splitTail_plain hu] at h
  injection h with h
  exact h.symm

theorem lastSeg_subset (p : Str) : ∀ c ∈ lastSeg p, c ∈ p := by
  unfold lastSeg
  cases h : splitLast '/' p with
  | none => intro c hc; exact hc
  | some xy =>
    obtain ⟨x, y⟩ := xy
    obtain ⟨hp, _⟩ := splitLast_eq_some h
    intro c hc
    rw [hp]
    exact List.mem_append.mpr (Or.inr (List.mem_cons_of_mem _ hc))

theorem lastSeg_of_no_slash {p : Str} (h : ('/' : Char) ∉ p) : lastSeg p = p := by
  unfold lastSeg
  rw [splitLast_eq_none_iff.mpr h]

theorem lastSeg_append_cons {x a : Str} (ha : ('/' : Char) ∉ a) :
    lastSeg (x ++ '/' :: a) = a := by
  unfold lastSeg
  rw [splitLast_append_cons ha]

/-- If the last segment of `q` carries no `;`, `_splitparams` is the
identity (with empty params). -/
theorem splitparams_no_params {q : Str} (h : (';' : Char) ∉ lastSeg q) :
    splitparams q = (q, []) := by
  by_cases hs : ('/' : Char) ∈ q
  · cases hl : splitLast '/' q with
    | none =>
      exfalso
      exact (splitLast_eq_none_iff.mp hl) hs
    | some xy =>
      obtain ⟨x, y⟩ := xy
      obtain ⟨hq, hy⟩ := splitLast_eq_some hl
      have hseg : lastSeg q = y := by
        rw [hq]; exact lastSeg_append_cons hy
      rw [hseg] at h
      unfold splitparams
      rw [if_pos hs, hl]
      dsimp only
      rw [splitFirst_eq_none_iff.mpr h]
  · unfold splitparams
    rw [if_neg hs]
    rw [lastSeg_of_no_slash hs] at h
    rw [splitFirst_eq_none_iff.mpr h]

theorem urlparseE_eq_of_split {w : Str} {sr : SplitResult}
    (h : urlsplitE w = .ok sr) :
    urlparseE w =
      if sr.scheme ∈ usesParams ∧ (';' : Char) ∈ sr.path then
        .ok ⟨sr.scheme, sr.netloc, (splitparams sr.path).1, (splitparams sr.path).2,
             sr.query, sr.fragment⟩
      else .ok ⟨sr.scheme, sr.netloc, sr.path, [], sr.query, sr.fragment⟩ := by
  unfold urlparseE
  rw [h]

/-- The params step of `urlparse`, when the split result's path cannot lose
anything to `_splitparams`. -/
theorem urlparseE_of_split {w : Str} {sr : SplitResult}
    (h : urlsplitE w = .ok sr)
    (hnp : sr.scheme ∈ usesParams → (';' : Char) ∉ lastSeg sr.path) :
    urlparseE w = .ok ⟨sr.scheme, sr.netloc, sr.path, [], sr.query, sr.fragment⟩ := by
  rw [urlparseE_eq_of_split h]
  by_cases hg : sr.scheme ∈ usesParams ∧ (';' : Char) ∈ sr.path
  · rw [if_pos hg, splitparams_no_params (hnp hg.1)]
  · rw [if_neg hg]

/-- Decomposition performed by `_splitparams`: the result is the input with
an optional `;`-led tail removed, and its last segment is `;`-free. -/
theorem splitparams_decomp (q : Str) :
    (∃ t, q = (splitparams q).1 ++ t ∧ (t = [] ∨ ∃ t', t = ';' :: t')) ∧
    ((';' : Char) ∈ q → (';' : Char) ∉ lastSeg (splitparams q).1) := by
  by_cases hs : ('/' : Char) ∈ q
  · cases hl : splitLast '/' q with
    | none => exact absurd hs (splitLast_eq_none_iff.mp hl)
    | some xy =>
      obtain ⟨x, y⟩ := xy
      obtain ⟨hq, hy⟩ := splitLast_eq_some hl
      cases hf : splitFirst ';' y with
      | none =>
        have hval : splitparams q = (q, []) := by
          unfold splitparams
          rw [if_pos hs, hl]
          dsimp only
          rw [hf]
        rw [hval]
        refine ⟨⟨[], by simp⟩, ?_⟩
        intro _
        rw [hq, lastSeg_append_cons hy]
        exact splitFirst_eq_none_iff.mp hf
      | some ab =>
        obtain ⟨a, b⟩ := ab
        obtain ⟨hy2, hna⟩ := splitFirst_eq_some hf
        have hval : splitparams q = (x ++ '/' :: a, b) := by
          unfold splitparams
          rw [if_pos hs, hl]
          dsimp only
          rw [hf]
        rw [hval]
        have hna' : ('/' : Char) ∉ a := fun hm => hy (by
          rw [hy2]
          exact List.mem_append.mpr (Or.inl hm))
        constructor
        · refine ⟨';' :: b, ?_, Or.inr ⟨b, rfl⟩⟩
          rw [hq, hy2]
          simp
        · intro _
          rw [lastSeg_append_cons hna']
          exact hna
  · cases hf : splitFirst ';' q with
    | none =>
      have hval : splitparams q = (q, []) := by
        unfold splitparams
        rw [if_neg hs, hf]
      rw [hval]
      exact ⟨⟨[], by simp⟩, fun hm => absurd hm (splitFirst_eq_none_iff.mp hf)⟩
    | some ab =>
      obtain ⟨a, b⟩ := ab
      obtain ⟨hp2, hna⟩ := splitFirst_eq_some hf
      have hval : splitparams q = (a, b) := by
        unfold splitparams
        rw [if_neg hs, hf]
      rw [hval]
      have hna' : ('/' : Char) ∉ a := fun hm => hs (by
        rw [hp2]
        exact List.mem_append.mpr (Or.inl hm))
      constructor
      · exact ⟨';' :: b, by simpa using hp2, Or.inr ⟨b, rfl⟩⟩
      · intro _
        rw [lastSeg_of_no_slash hna']
        exact hna

/-- Elimination form of the params step. -/
theorem urlparseE_ok_elim {w : Str} {P : ParseResult}
    (h : urlparseE w = .ok P) :
    ∃ sr : SplitResult, urlsplitE w = .ok sr ∧
      P.scheme = sr.scheme ∧ P.netloc = sr.netloc ∧
      (∃ t, sr.path = P.path ++ t ∧ (t = [] ∨ ∃ t', t = ';' :: t')) ∧
      (P.scheme ∈ usesParams → (';' : Char) ∉ lastSeg P.path) := by
  cases hsp : urlsplitE w with
  | error e =>
    exfalso
    unfold urlparseE at h
    rw [hsp] at h
    cases h
  | ok sr =>
    rw [urlparseE_eq_of_split hsp] at h
    refine ⟨sr, rfl, ?_⟩
    by_cases hg : sr.scheme ∈ usesParams ∧ (';' : Char) ∈ sr.path
    · rw [if_pos hg] at h
      injection h with h
      subst h
      dsimp only
      obtain ⟨hdec, hlast⟩ := splitparams_decomp sr.path
      exact ⟨rfl, rfl, hdec, fun _ => hlast hg.2⟩
    · rw [if_neg hg] at h
      injection h with h
      subst h
      dsimp only
      refine ⟨rfl, rfl, ⟨[], by simp⟩, ?_⟩
      intro hu hm
      rcases not_and_or.mp hg with hg1 | hg2
      · exact hg1 hu
      · exact hg2 (lastSeg_subset _ _ hm)

/-! ## Evaluation of `urlsplitE` on re-assembled URLs -/

theorem schemeStr_no_colon {s : Str} (hsch : ∀ c ∈ s, isSchemeChar c = true) :
    (':' : Char) ∉ s := by
  intro hm
  have := hsch _ hm
  revert this
  decide

theorem splitTail_eval_netloc {s n p : Str}
    (hn : ∀ c ∈ n, netChar c = true) (hb : badBrackets n = false)
    (hp : p = [] ∨ ∃ t, p = '/' :: t) (hh : '#' ∉ p) (hq : '?' ∉ p) :
    splitTail s ('/' :: '/' :: (n ++ p)) = .ok ⟨s, n, p, [], []⟩ := by
  have htt : (('/' : Char) :: '/' :: (n ++ p)).take 2 = ['/', '/'] := rfl
  have hsn : splitnetloc2 ('/' :: '/' :: (n ++ p)) = (n, p) := splitnetloc2_eval hn hp
  rw [splitTail_netloc htt (by rw [hsn]; exact hb)]
  rw [hsn]
  rw [cutAt_of_not_mem hh]
  dsimp only
  rw [cutAt_of_not_mem hq]

theorem splitTail_eval_plain {s p : Str}
    (h2 : ¬ p.take 2 = ['/', '/']) (hh : '#' ∉ p) (hq : '?' ∉ p) :
    splitTail s p = .ok ⟨s, [], p, [], []⟩ := by
  rw [splitTail_plain h2]
  rw [cutAt_of_not_mem hh]
  dsimp only
  rw [cutAt_of_not_mem hq]

theorem urlsplit_eval_full {s n p : Str}
    (hs : s ≠ []) (hsch : ∀ c ∈ s, isSchemeChar c = true) (hlow : LowerOK s)
    (hn : ∀ c ∈ n, netChar c = true) (hb : badBrackets n = false)
    (hp : p = [] ∨ ∃ t, p = '/' :: t) (hh : '#' ∉ p) (hq : '?' ∉ p) :
    urlsplitE (s ++ ':' :: '/' :: '/' :: (n ++ p)) = .ok ⟨s, n, p, [], []⟩ := by
  have hcol := schemeStr_no_colon hsch
  unfold urlsplitE
  rw [splitFirst_append_cons hcol]
  dsimp only
  rw [if_neg hs]
  by_cases hfast : s = ('h' :: 't' :: 't' :: 'p' :: [])
  · rw [if_pos hfast]
    exact splitTail_eval_netloc hn hb hp hh hq
  · rw [if_neg hfast]
    rw [if_pos (List.all_eq_true.mpr hsch)]
    have hany : ('/' :: '/' :: (n ++ p) : Str) = []
        ∨ ('/' :: '/' :: (n ++ p) : Str).any (fun c => !isDigitCh c) = true := by
      right
      exact List.any_eq_true.mpr ⟨'/', List.mem_cons_self _ _, by decide⟩
    rw [if_pos hany]
    rw [pyLower_eq_self hlow]
    exact splitTail_eval_netloc hn hb hp hh hq

theorem urlsplit_eval_opaque {s p : Str}
    (hs : s ≠ []) (hsch : ∀ c ∈ s, isSchemeChar c = true) (hlow : LowerOK s)
    (hacc : s = ('h' :: 't' :: 't' :: 'p' :: [])
      ∨ p = [] ∨ ∃ c ∈ p, isDigitCh c = false)
    (h2 : ¬ p.take 2 = ['/', '/']) (hh : '#' ∉ p) (hq : '?' ∉ p) :
    urlsplitE (s ++ ':' :: p) = .ok ⟨s, [], p, [], []⟩ := by
  have hcol := schemeStr_no_colon hsch
  unfold urlsplitE
  rw [splitFirst_append_cons hcol]
  dsimp only
  rw [if_neg hs]
  by_cases hfast : s = ('h' :: 't' :: 't' :: 'p' :: [])
  · rw [if_pos hfast]
    exact splitTail_eval_plain h2 hh hq
  · rw [if_neg hfast]
    rw [if_pos (List.all_eq_true.mpr hsch)]
    have hany : p = [] ∨ p.any (fun c => !isDigitCh c) = true := by
      rcases hacc with h | h | ⟨c, hc, hdc⟩
      · exact absurd h hfast
      · exact Or.inl h
      · exact Or.inr (List.any_eq_true.mpr ⟨c, hc, by rw [hdc]; rfl⟩)
    rw [if_pos hany]
    rw [pyLower_eq_self hlow]
    exact splitTail_eval_plain h2 hh hq

theorem urlsplit_eval_portreject {s p : Str}
    (hs : s ≠ []) (hsch : ∀ c ∈ s, isSchemeChar c = true)
    (hshttp : s ≠ ('h' :: 't' :: 't' :: 'p' :: []))
    (hne : p ≠ []) (hdig : ∀ c ∈ p, isDigitCh c = true)
    (h2 : ¬ (s ++ ':' :: p).take 2 = ['/', '/'])
    (hh : '#' ∉ s ++ ':' :: p) (hq : '?' ∉ s ++ ':' :: p) :
    urlsplitE (s ++ ':' :: p) = .ok ⟨[], [], s ++ ':' :: p, [], []⟩ := by
  have hcol := schemeStr_no_colon hsch
  unfold urlsplitE
  rw [splitFirst_append_cons hcol]
  dsimp only
  rw [if_neg hs, if_neg hshttp]
  rw [if_pos (List.all_eq_true.mpr hsch)]
  have hnone : ¬ (p = [] ∨ p.any (fun c => !isDigitCh c) = true) := by
    rintro (h | h)
    · exact hne h
    · obtain ⟨c, hc, hdc⟩ := List.any_eq_true.mp h
      rw [hdig c hc] at hdc
      cases hdc
  rw [if_neg hnone]
  exact splitTail_eval_plain h2 hh hq

theorem urlsplit_eval_noscheme {p : Str}
    (h2 : ¬ p.take 2 = ['/', '/'])
    (hh : '#' ∉ p) (hq : '?' ∉ p)
    (hrej : (':' : Char) ∉ p
      ∨ ∃ b a, p = b ++ ':' :: a ∧ (':' : Char) ∉ b ∧ b ≠ []
          ∧ b ≠ ('h' :: 't' :: 't' :: 'p' :: [])
          ∧ (¬ b.all isSchemeChar = true ∨ (a ≠ [] ∧ ∀ c ∈ a, isDigitCh c = true))) :
    urlsplitE p = .ok ⟨[], [], p, [], []⟩ := by
  unfold urlsplitE
  rcases hrej with hno | ⟨b, a, hpb, hcb, hbne, hbhttp, hinner⟩
  · rw [splitFirst_eq_none_iff.mpr hno]
    exact splitTail_eval_plain h2 hh hq
  · have hsf : splitFirst ':' p = some (b, a) := by
      rw [hpb]; exact splitFirst_append_cons hcb
    rw [hsf]
    dsimp only
    rw [if_neg hbne, if_neg hbhttp]
    by_cases hba : b.all isSchemeChar = true
    · rw [if_pos hba]
      have hnacc : ¬ (a = [] ∨ a.any (fun c => !isDigitCh c) = true) := by
        rcases hinner with hbad | ⟨hane, hadig⟩
        · exact absurd hba hbad
        · rintro (h | h)
          · exact hane h
          · obtain ⟨c, hc, hdc⟩ := List.any_eq_true.mp h
            rw [hadig c hc] at hdc
            cases hdc
      rw [if_neg hnacc]
      exact splitTail_eval_plain h2 hh hq
    · rw [if_neg hba]
      exact splitTail_eval_plain h2 hh hq

/-! ## Inventory of the first parse -/

theorem take2_eq_elim {l : Str} {a b : Char} (h : l.take 2 = [a, b]) :
    ∃ t, l = a :: b :: t := by
  cases l with
  | nil => cases h
  | cons x t1 =>
    cases t1 with
    | nil => simp at h
    | cons y t2 =>
      refine ⟨t2, ?_⟩
      simp only [List.take_succ_cons, List.take_zero] at h
      injection h with h1 h2
      injection h2 with h2 _
      rw [h1, h2]

theorem cutpath_shape {rest : Str}
    (hsh : rest = [] ∨ ∃ b t, rest = b :: t ∧ netChar b = false) :
    (cutAt '?' (cutAt '#' rest).1).1 = []
    ∨ ∃ t, (cutAt '?' (cutAt '#' rest).1).1 = '/' :: t := by
  rcases hsh with h0 | ⟨b, t, hbt, hnb⟩
  · left
    rw [h0]
    rfl
  · subst hbt
    rcases netChar_false_cases hnb with hb | hb | hb <;> subst hb
    · have hpref : (cutAt '?' (cutAt '#' ('/' :: t)).1).1 <+: '/' :: t :=
        (cutAt_prefix_fst _ _).trans (cutAt_prefix_fst _ _)
      exact prefix_cons_shape hpref
    · left
      have hpref1 : (cutAt '#' ('?' :: t)).1 <+: '?' :: t := cutAt_prefix_fst _ _
      rcases prefix_cons_shape hpref1 with h1 | ⟨t', ht'⟩
      · rw [h1]; rfl
      · rw [ht']
        simp [cutAt, splitFirst]
    · left
      have hnh : '#' ∉ (cutAt '#' ('#' :: t)).1 := cutAt_fst_not_mem _ _
      have hpref1 : (cutAt '#' ('#' :: t)).1 <+: '#' :: t := cutAt_prefix_fst _ _
      rcases prefix_cons_shape hpref1 with h1 | ⟨t', ht'⟩
      · rw [h1]; rfl
      · exfalso
        apply hnh
        rw [ht']
        exact List.mem_cons_self _ _

theorem splitInv_accepted {w before after : Str} {sr : SplitResult}
    (hlow : LowerOK w)
    (hwdec : w = before ++ ':' :: after)
    (hbne : before ≠ [])
    (hsch : ∀ c ∈ before, isSchemeChar c = true)
    (hhttpb : httpL <+: before)
    (h : splitTail before after = .ok sr) :
    SplitInv w sr := by
  have hsubafter : ∀ c ∈ after, c ∈ w := by
    intro c hc
    rw [hwdec]
    exact List.mem_append.mpr (Or.inr (List.mem_cons_of_mem _ hc))
  have hsubbefore : ∀ c ∈ before, c ∈ w := by
    intro c hc
    rw [hwdec]
    exact List.mem_append.mpr (Or.inl hc)
  have hlowb : LowerOK before := lowerOK_of_sub hlow hsubbefore
  by_cases hta : after.take 2 = ['/', '/']
  · obtain ⟨hb, hsr⟩ := splitTail_ok_netloc hta h
    subst hsr
    have hnsub : ∀ c ∈ (splitnetloc2 after).1, c ∈ w := by
      intro c hc
      exact hsubafter c
        (((List.takeWhile_sublist _).trans (List.drop_sublist _ _)).mem hc)
    have hrsub : ∀ c ∈ (splitnetloc2 after).2, c ∈ w := by
      intro c hc
      exact hsubafter c
        (((List.dropWhile_sublist _).trans (List.drop_sublist _ _)).mem hc)
    have hpathsub : ∀ c ∈ (cutAt '?' (cutAt '#' (splitnetloc2 after).2).1).1, c ∈ w := by
      intro c hc
      exact hrsub c
        (((cutAt_prefix_fst _ _).trans (cutAt_prefix_fst _ _)).sublist.mem hc)
    refine ⟨lowerOK_of_sub hlow hnsub, lowerOK_of_sub hlow hpathsub,
      (fun c hc => List.mem_takeWhile_imp hc), hb,
      cutAt_not_mem (cutAt_fst_not_mem '#' _), cutAt_fst_not_mem '?' _, ?_⟩
    exact Or.inl ⟨hbne, hsch, hlowb, hhttpb,
      fun _ => cutpath_shape (dropWhile_shape netChar _)⟩
  · obtain hsr := splitTail_ok_plain hta h
    subst hsr
    have hpathsub : ∀ c ∈ (cutAt '?' (cutAt '#' after).1).1, c ∈ w := by
      intro c hc
      exact hsubafter c
        (((cutAt_prefix_fst _ _).trans (cutAt_prefix_fst _ _)).sublist.mem hc)
    refine ⟨fun c hc => absurd hc (by simp), lowerOK_of_sub hlow hpathsub,
      fun c hc => absurd hc (by simp), badBrackets_nil,
      cutAt_not_mem (cutAt_fst_not_mem '#' _), cutAt_fst_not_mem '?' _, ?_⟩
    refine Or.inl ⟨hbne, hsch, hlowb, hhttpb, ?_⟩
    rintro (hcond | hcond)
    · exact absurd rfl hcond
    · obtain ⟨t, ht⟩ := take2_eq_elim hcond
      exact Or.inr ⟨'/' :: t, ht⟩

theorem splitInv_rejected {w : Str} {sr : SplitResult}
    (hlow : LowerOK w) (hpre : httpL <+: w)
    (hw2 : ¬ w.take 2 = ['/', '/'])
    (hrej : (':' : Char) ∉ w
       ∨ (∃ b a, w = b ++ ':' :: a ∧ (':' : Char) ∉ b ∧ b ≠ []
           ∧ ¬ b.all isSchemeChar = true)
       ∨ (∃ b a, w = b ++ ':' :: a ∧ (':' : Char) ∉ b ∧ b ≠ [] ∧ b ≠ httpL
           ∧ b.all isSchemeChar = true ∧ a ≠ []
           ∧ ∀ c ∈ a, isDigitCh c = true))
    (h : splitTail [] w = .ok sr) :
    SplitInv w sr := by
  obtain hsr := splitTail_ok_plain hw2 h
  subst hsr
  have hpathsub : ∀ c ∈ (cutAt '?' (cutAt '#' w).1).1, c ∈ w := fun c hc =>
    ((cutAt_prefix_fst _ _).trans (cutAt_prefix_fst _ _)).sublist.mem hc
  refine ⟨fun c hc => absurd hc (by simp), lowerOK_of_sub hlow hpathsub,
    fun c hc => absurd hc (by simp), badBrackets_nil,
    cutAt_not_mem (cutAt_fst_not_mem '#' _), cutAt_fst_not_mem '?' _, ?_⟩
  obtain ⟨t1, hw1, hs1⟩ := cutAt_decomp '#' w
  obtain ⟨t2, hf2, hs2⟩ := cutAt_decomp '?' (cutAt '#' w).1
  have hppre1 : httpL <+: (cutAt '#' w).1 := by
    rcases hs1 with h0 | ⟨t', ht'⟩
    · rw [h0, List.append_nil] at hw1
      rw [← hw1]
      exact hpre
    · subst ht'
      refine cut_keeps_http (y := t') (c := '#') ?_ (by decide)
      rw [← hw1]
      exact hpre
  refine Or.inr ⟨rfl, rfl, ?_, ?_, hrej⟩
  · rcases hs2 with h0 | ⟨t', ht'⟩
    · rw [h0, List.append_nil] at hf2
      rw [← hf2]
      exact hppre1
    · subst ht'
      refine cut_keeps_http (y := t') (c := '?') ?_ (by decide)
      rw [← hf2]
      exact hppre1
  · have hww : w = (cutAt '?' (cutAt '#' w).1).1 ++ (t2 ++ t1) := by
      conv_lhs => rw [hw1]
      conv_lhs => rw [hf2]
      rw [List.append_assoc]
    refine ⟨t2 ++ t1, hww, ?_⟩
    rcases hs2 with h0 | ⟨t', ht'⟩
    · subst h0
      simp only [List.nil_append]
      rcases hs1 with h1 | ⟨t'', ht''⟩
      · exact Or.inl h1
      · exact Or.inr ⟨'#', t'', ht'', Or.inl rfl⟩
    · subst ht'
      exact Or.inr ⟨'?', t' ++ t1, rfl, Or.inr rfl⟩

theorem urlsplit_inventory {w : Str} {sr : SplitResult}
    (hlow : LowerOK w) (hpre : httpL <+: w) (h : urlsplitE w = .ok sr) :
    SplitInv w sr := by
  have hw2 : ¬ w.take 2 = ['/', '/'] :=
    take2_ne_slashes (by rw [http_prefix_head hpre]; decide)
  unfold urlsplitE at h
  cases hsf : splitFirst ':' w with
  | none =>
    rw [hsf] at h
    exact splitInv_rejected hlow hpre hw2 (Or.inl (splitFirst_eq_none_iff.mp hsf)) h
  | some ba =>
    obtain ⟨before, after⟩ := ba
    rw [hsf] at h
    dsimp only at h
    obtain ⟨hwdec, hnb⟩ := splitFirst_eq_some hsf
    have hbne : before ≠ [] := by
      intro hb
      subst hb
      rw [hwdec] at hpre
      have := http_prefix_head hpre
      simp at this
    rw [if_neg hbne] at h
    have hhttpb : httpL <+: before := by
      refine cut_keeps_http (y := after) (c := ':') ?_ (by decide)
      rw [← hwdec]
      exact hpre
    by_cases hfast : before = ('h' :: 't' :: 't' :: 'p' :: [])
    · rw [if_pos hfast] at h
      refine splitInv_accepted hlow hwdec hbne ?_ hhttpb h
      subst hfast
      decide
    · rw [if_neg hfast] at h
      by_cases hall : before.all isSchemeChar = true
      · rw [if_pos hall] at h
        by_cases hacc : after = [] ∨ after.any (fun c => !isDigitCh c) = true
        · rw [if_pos hacc] at h
          rw [pyLower_eq_self (lowerOK_of_sub hlow (fun c hc => by
            rw [hwdec]
            exact List.mem_append.mpr (Or.inl hc)))] at h
          exact splitInv_accepted hlow hwdec hbne (List.all_eq_true.mp hall) hhttpb h
        · rw [if_neg hacc] at h
          have hane : after ≠ [] := fun h0 => hacc (Or.inl h0)
          have hdig : ∀ c ∈ after, isDigitCh c = true := by
            intro c hc
            by_contra hcd
            apply hacc
            right
            have hfd : isDigitCh c = false := by
              cases hx : isDigitCh c
              · rfl
              · exact absurd hx hcd
            exact List.any_eq_true.mpr ⟨c, hc, by rw [hfd]; rfl⟩
          exact splitInv_rejected hlow hpre hw2
            (Or.inr (Or.inr ⟨before, after, hwdec, hnb, hbne, hfast, hall, hane, hdig⟩)) h
      · rw [if_neg hall] at h
        exact splitInv_rejected hlow hpre hw2
          (Or.inr (Or.inl ⟨before, after, hwdec, hnb, hbne, hall⟩)) h

/-! ## Transfer of the inventory through the params step -/

theorem urlparse_inventory {w : Str} {P : ParseResult}
    (hlow : LowerOK w) (hpre : httpL <+: w) (h : urlparseE w = .ok P) :
    ParseInv w P := by
  obtain ⟨sr, hsp, hsc, hnl, ⟨t2, hpath, hshape⟩, hnp⟩ := urlparseE_ok_elim h
  have inv := urlsplit_inventory hlow hpre hsp
  have hppre : P.path <+: sr.path := ⟨t2, hpath.symm⟩
  have hpsub : ∀ c ∈ P.path, c ∈ sr.path := fun c hc => hppre.sublist.mem hc
  refine ⟨?_, ?_, ?_, ?_, ?_, ?_, hnp, ?_⟩
  · rw [hnl]; exact inv.lowNet
  · exact lowerOK_of_sub inv.lowPath hpsub
  · rw [hnl]; exact inv.netOK
  · rw [hnl]; exact inv.brackOK
  · exact fun hm => inv.noHash (hpsub _ hm)
  · exact fun hm => inv.noQuest (hpsub _ hm)
  · rcases inv.schemeCase with ⟨h1, h2, h3, h4, h5⟩ | ⟨h1, h2, h3, h4, h5⟩
    · left
      refine ⟨by rw [hsc]; exact h1, by rw [hsc]; exact h2, by rw [hsc]; exact h3,
        by rw [hsc]; exact h4, ?_⟩
      rintro (hc | hc)
      · have hsr := h5 (Or.inl (by rw [← hnl]; exact hc))
        rcases hsr with h0 | ⟨t, ht⟩
        · left
          have hx := hppre
          rw [h0] at hx
          exact List.prefix_nil.mp hx
        · rw [ht] at hppre
          exact prefix_cons_shape hppre
      · obtain ⟨t, ht⟩ := take2_eq_elim hc
        exact Or.inr ⟨'/' :: t, ht⟩
    · right
      refine ⟨by rw [hsc]; exact h1, by rw [hnl]; exact h2, ?_, ?_, h5⟩
      · rcases hshape with h0 | ⟨t', ht'⟩
        · subst h0
          rw [List.append_nil] at hpath
          exact hpath ▸ h3
        · subst ht'
          refine cut_keeps_http (y := t') (c := ';') ?_ (by decide)
          rw [← hpath]
          exact h3
      · obtain ⟨t, hwt, hts⟩ := h4
        refine ⟨t2 ++ t, ?_, ?_⟩
        · conv_lhs => rw [hwt]
          conv_lhs => rw [hpath]
          rw [List.append_assoc]
        · rcases hshape with h0 | ⟨t', ht'⟩
          · subst h0
            simp only [List.nil_append]
            rcases hts with h1 | ⟨c, t'', htc, hcm⟩
            · exact Or.inl h1
            · refine Or.inr ⟨c, t'', htc, ?_⟩
              rcases hcm with hx | hx
              · exact Or.inl hx
              · exact Or.inr (Or.inl hx)
          · subst ht'
            exact Or.inr ⟨';', t' ++ t, rfl, Or.inr (Or.inr rfl)⟩

/-! ## Evaluation of `urlunparse3` -/

theorem urlunparse3_eval_nloc {s n p : Str} (hs : s ≠ [])
    (hcond : n ≠ [] ∨ p.take 2 = ['/', '/'])
    (hp : p = [] ∨ ∃ t, p = '/' :: t) :
    urlunparse3 s n p = s ++ ':' :: '/' :: '/' :: (n ++ p) := by
  unfold urlunparse3
  rw [if_pos hcond]
  dsimp only
  have hno : ¬ (p ≠ [] ∧ p.head? ≠ some '/') := by
    rcases hp with h0 | ⟨t, ht⟩
    · subst h0; simp
    · subst ht; simp
  rw [if_neg hno, if_pos hs]

theorem urlunparse3_eval_plain {s n p : Str} (hs : s ≠ [])
    (hcond : ¬ (n ≠ [] ∨ p.take 2 = ['/', '/'])) :
    urlunparse3 s n p = s ++ ':' :: p := by
  unfold urlunparse3
  rw [if_neg hcond]
  dsimp only
  rw [if_pos hs]

theorem urlunparse3_eval_bare {p : Str} (hcond : ¬ p.take 2 = ['/', '/']) :
    urlunparse3 ([] : Str) ([] : Str) p = p := by
  unfold urlunparse3
  have hc2 : ¬ (([] : Str) ≠ [] ∨ p.take 2 = ['/', '/']) := by
    rintro (hx | hx)
    · exact hx rfl
    · exact hcond hx
  rw [if_neg hc2]
  dsimp only
  rw [if_neg (by simp : ¬ (([] : Str) ≠ []))]

/-! ## The parse/unparse fixpoint -/

theorem parse_unparse_fix {w : Str} {P : ParseResult}
    (hlow : LowerOK w) (hpre : httpL <+: w) (h : urlparseE w = .ok P) :
    LowerOK (urlunparse3 P.scheme P.netloc P.path)
    ∧ httpL <+: urlunparse3 P.scheme P.netloc P.path
    ∧ ∃ P2 : ParseResult,
        urlparseE (urlunparse3 P.scheme P.netloc P.path) = .ok P2
        ∧ P2.params = [] ∧ P2.query = [] ∧ P2.fragment = []
        ∧ urlunparse3 P2.scheme P2.netloc P2.path
          = urlunparse3 P.scheme P.netloc P.path := by
  have inv := urlparse_inventory hlow hpre h
  rcases inv.schemeCase with ⟨hsne, hsch, hslow, hshttp, hshape⟩
    | ⟨hs0, hn0, hppre, hdec, hrej⟩
  · by_cases hcond : P.netloc ≠ [] ∨ P.path.take 2 = ['/', '/']
    · -- scheme + authority form
      have hshp := hshape hcond
      have hv := urlunparse3_eval_nloc hsne hcond hshp
      rw [hv]
      have hlowv : LowerOK (P.scheme ++ ':' :: '/' :: '/' :: (P.netloc ++ P.path)) := by
        refine lowerOK_append hslow ?_
        exact lowerOK_cons (by decide) (lowerOK_cons (by decide)
          (lowerOK_cons (by decide) (lowerOK_append inv.lowNet inv.lowPath)))
      refine ⟨hlowv, hshttp.trans ⟨_, rfl⟩, ?_⟩
      have hsplit := urlsplit_eval_full hsne hsch hslow inv.netOK inv.brackOK
        hshp inv.noHash inv.noQuest
      refine ⟨⟨P.scheme, P.netloc, P.path, [], [], []⟩, ?_, rfl, rfl, rfl, ?_⟩
      · exact urlparseE_of_split hsplit inv.noParams
      · exact hv
    · -- scheme + opaque path form
      have hn_eq : P.netloc = [] := by
        by_contra hne
        exact hcond (Or.inl hne)
      have ht2 : ¬ P.path.take 2 = ['/', '/'] := fun hp => hcond (Or.inr hp)
      have hv := urlunparse3_eval_plain hsne hcond
      rw [hv]
      have hlowv : LowerOK (P.scheme ++ ':' :: P.path) :=
        lowerOK_append hslow (lowerOK_cons (by decide) inv.lowPath)
      refine ⟨hlowv, hshttp.trans ⟨_, rfl⟩, ?_⟩
      have htakev : ¬ (P.scheme ++ ':' :: P.path).take 2 = ['/', '/'] := by
        apply take2_ne_slashes
        rw [List.head?_append_of_ne_nil _ hsne, http_prefix_head hshttp]
        decide
      by_cases hport : P.scheme ≠ ('h' :: 't' :: 't' :: 'p' :: [])
          ∧ P.path ≠ [] ∧ ∀ c ∈ P.path, isDigitCh c = true
      · obtain ⟨hsh, hpne, hdig⟩ := hport
        have hvh : '#' ∉ P.scheme ++ ':' :: P.path := by
          intro hm
          rcases List.mem_append.mp hm with hm | hm
          · have := hsch _ hm; revert this; decide
          · rcases List.mem_cons.mp hm with hm | hm
            · exact absurd hm (by decide)
            · have := hdig _ hm; revert this; decide
        have hvq : '?' ∉ P.scheme ++ ':' :: P.path := by
          intro hm
          rcases List.mem_append.mp hm with hm | hm
          · have := hsch _ hm; revert this; decide
          · rcases List.mem_cons.mp hm with hm | hm
            · exact absurd hm (by decide)
            · have := hdig _ hm; revert this; decide
        have hvsemi : (';' : Char) ∉ P.scheme ++ ':' :: P.path := by
          intro hm
          rcases List.mem_append.mp hm with hm | hm
          · have := hsch _ hm; revert this; decide
          · rcases List.mem_cons.mp hm with hm | hm
            · exact absurd hm (by decide)
            · have := hdig _ hm; revert this; decide
        have hsplit := urlsplit_eval_portreject hsne hsch hsh hpne hdig htakev hvh hvq
        refine ⟨⟨[], [], P.scheme ++ ':' :: P.path, [], [], []⟩, ?_, rfl, rfl, rfl, ?_⟩
        · refine urlparseE_of_split hsplit ?_
          intro _ hm
          exact hvsemi (lastSeg_subset _ _ hm)
        · exact urlunparse3_eval_bare htakev
      · have hacc : P.scheme = ('h' :: 't' :: 't' :: 'p' :: [])
            ∨ P.path = [] ∨ ∃ c ∈ P.path, isDigitCh c = false := by
          by_cases h1 : P.scheme = ('h' :: 't' :: 't' :: 'p' :: [])
          · exact Or.inl h1
          by_cases h2 : P.path = []
          · exact Or.inr (Or.inl h2)
          right; right
          by_contra hno
          push_neg at hno
          apply hport
          refine ⟨h1, h2, fun c hc => ?_⟩
          have := hno c hc
          cases hx : isDigitCh c
          · exact absurd hx this
          · rfl
        have hsplit := urlsplit_eval_opaque hsne hsch hslow hacc ht2
          inv.noHash inv.noQuest
        refine ⟨⟨P.scheme, [], P.path, [], [], []⟩, ?_, rfl, rfl, rfl, ?_⟩
        · exact urlparseE_of_split hsplit inv.noParams
        · rw [show urlunparse3 P.scheme ([] : Str) P.path
              = urlunparse3 P.scheme P.netloc P.path by rw [hn_eq]]
          exact hv
  · -- no scheme survived: the whole string is the path
    have hph2 : ¬ P.path.take 2 = ['/', '/'] :=
      take2_ne_slashes (by rw [http_prefix_head hppre]; decide)
    have hv : urlunparse3 P.scheme P.netloc P.path = P.path := by
      rw [hs0, hn0]
      exact urlunparse3_eval_bare hph2
    rw [hv]
    refine ⟨inv.lowPath, hppre, ?_⟩
    have hrej2 : (':' : Char) ∉ P.path
        ∨ ∃ b a, P.path = b ++ ':' :: a ∧ (':' : Char) ∉ b ∧ b ≠ []
            ∧ b ≠ ('h' :: 't' :: 't' :: 'p' :: [])
            ∧ (¬ b.all isSchemeChar = true
               ∨ (a ≠ [] ∧ ∀ c ∈ a, isDigitCh c = true)) := by
      by_cases hcol : (':' : Char) ∈ P.path
      · cases hsfp : splitFirst ':' P.path with
        | none => exact absurd hcol (splitFirst_eq_none_iff.mp hsfp)
        | some ba =>
          obtain ⟨b', a'⟩ := ba
          obtain ⟨hpdec, hnb'⟩ := splitFirst_eq_some hsfp
          obtain ⟨t, hwt, hts⟩ := hdec
          have hwdec2 : w = b' ++ ':' :: (a' ++ t) := by
            rw [hwt]
            conv_lhs => rw [hpdec]
            rw [List.append_assoc]
            rfl
          rcases hrej with hno | ⟨b, a, hwdec, hnb, hbne, hbad⟩
            | ⟨b, a, hwdec, hnb, hbne, hbh, hball, hane, hadig⟩
          · exfalso
            apply hno
            rw [hwt]
            exact List.mem_append.mpr (Or.inl hcol)
          · obtain ⟨hbb, hba⟩ := first_decomp_unique (hwdec2.symm.trans hwdec) hnb' hnb
            have hbh' : b' ≠ ('h' :: 't' :: 't' :: 'p' :: []) := by
              intro hh
              apply hbad
              rw [← hbb, hh]
              decide
            exact Or.inr ⟨b', a', hpdec, hnb', by rw [hbb]; exact hbne, hbh',
              Or.inl (by rw [hbb]; exact hbad)⟩
          · obtain ⟨hbb, hba⟩ := first_decomp_unique (hwdec2.symm.trans hwdec) hnb' hnb
            have ht0 : t = [] := by
              rcases hts with h0 | ⟨c, t', htc, hcm⟩
              · exact h0
              · exfalso
                have hcin : c ∈ a := by
                  rw [← hba, htc]
                  exact List.mem_append.mpr (Or.inr (List.mem_cons_self _ _))
                have hd := hadig c hcin
                rcases hcm with hx | hx | hx <;> (subst hx; revert hd; decide)
            subst ht0
            rw [List.append_nil] at hba
            refine Or.inr ⟨b', a', hpdec, hnb', by rw [hbb]; exact hbne,
              by rw [hbb]; exact hbh, Or.inr ⟨by rw [hba]; exact hane,
              fun c hc => hadig c (hba ▸ hc)⟩⟩
      · exact Or.inl hcol
    have hsplit := urlsplit_eval_noscheme hph2 inv.noHash inv.noQuest hrej2
    refine ⟨⟨[], [], P.path, [], [], []⟩, ?_, rfl, rfl, rfl, ?_⟩
    · refine urlparseE_of_split hsplit ?_
      intro _
      exact inv.noParams (by rw [hs0]; decide)
    · exact urlunparse3_eval_bare hph2

/-! ## Corollaries at the level of `normalize` and `add_url` -/

theorem normalize_result_fix {uc : UrlCollection} {u v : Str}
    (h : uc.normalize u = .ok (some v)) : uc.normalize v = .ok (some v) := by
  unfold UrlCollection.normalize at h
  by_cases hu0 : u = []
  · rw [if_pos hu0] at h
    cases h
  rw [if_neg hu0] at h
  dsimp only at h
  by_cases hpre : (('h' :: 't' :: 't' :: 'p' :: []) : Str).isPrefixOf
      (pyLower (if u.head? = some '/' then uc.base_url ++ u else u)) = true
  · rw [if_pos hpre] at h
    cases hp : urlparseE (pyLower (if u.head? = some '/' then uc.base_url ++ u else u)) with
    | error e =>
      rw [hp] at h
      cases h
    | ok P =>
      rw [hp] at h
      injection h with h
      injection h with h
      obtain ⟨hlowv, hprev, P2, hparse2, _, _, _, hunp2⟩ :=
        parse_unparse_fix (lowerOK_pyLower _) (isPrefixOf_eq_true_iff.mp hpre) hp
      rw [← h]
      unfold UrlCollection.normalize
      have hvne : urlunparse3 P.scheme P.netloc P.path ≠ [] := by
        intro h0
        rw [h0] at hprev
        exact absurd (List.prefix_nil.mp hprev) (by decide)
      rw [if_neg hvne]
      dsimp only
      have hhd := http_prefix_head hprev
      rw [if_neg (by rw [hhd]; decide :
        ¬ (urlunparse3 P.scheme P.netloc P.path).head? = some '/')]
      rw [pyLower_eq_self hlowv]
      rw [if_pos (isPrefixOf_eq_true_iff.mpr hprev)]
      rw [hparse2]
      dsimp only
      rw [hunp2]
  · rw [if_neg hpre] at h
    cases h

theorem normalize_bind_idem (uc : UrlCollection) (u : Str) :
    (uc.normalize u).bind (normalizeOpt uc) = uc.normalize u := by
  cases h : uc.normalize u with
  | error e => rfl
  | ok n =>
    cases n with
    | none => rfl
    | some v =>
      show normalizeOpt uc (some v) = .ok (some v)
      exact normalize_result_fix h

theorem normalize_congr {uc1 uc2 : UrlCollection} (h : uc1.base_url = uc2.base_url)
    (u : Str) : uc1.normalize u = uc2.normalize u := by
  unfold UrlCollection.normalize
  rw [h]

theorem should_add_true_elim {uc : UrlCollection} {n : Option Str}
    (h : uc.should_add n = .ok true) :
    ∃ v, n = some v ∧ v ≠ [] ∧ v ∉ uc.seen_urls
      ∧ uc.in_root_domain v = .ok true := by
  cases n with
  | none =>
    unfold UrlCollection.should_add at h
    simp at h
  | some v =>
    unfold UrlCollection.should_add at h
    dsimp only at h
    by_cases h0 : v = []
    · rw [if_pos h0] at h
      simp at h
    rw [if_neg h0] at h
    by_cases h1 : v ∈ uc.seen_urls
    · rw [if_pos h1] at h
      simp at h
    rw [if_neg h1] at h
    exact ⟨v, rfl, h0, h1, h⟩

theorem in_root_domain_true_elim {uc : UrlCollection} {v : Str}
    (h : uc.in_root_domain v = .ok true) :
    ∃ p, urlparseE v = .ok p ∧ uc.root.isSuffixOf p.netloc = true := by
  unfold UrlCollection.in_root_domain at h
  cases hp : urlparseE v with
  | error e =>
    rw [hp] at h
    cases h
  | ok p =>
    rw [hp] at h
    injection h with h
    exact ⟨p, rfl, h⟩

theorem add_url_cases {uc uc2 : UrlCollection} {url : Str}
    (h : uc.add_url url = .ok uc2) :
    uc2 = uc
    ∨ ∃ v, uc.normalize url = .ok (some v) ∧ v ≠ [] ∧ v ∉ uc.seen_urls
        ∧ uc.in_root_domain v = .ok true
        ∧ uc2 = { uc with
            seen_urls := insert v uc.seen_urls
          , work_urls :=
              if v ∈ uc.work_urls then uc.work_urls
              else uc.work_urls ++ [v] } := by
  unfold UrlCollection.add_url at h
  cases hn : uc.normalize url with
  | error e =>
    rw [hn] at h
    cases h
  | ok n =>
    rw [hn] at h
    dsimp only at h
    cases hs : uc.should_add n with
    | error e =>
      rw [hs] at h
      cases h
    | ok b =>
      rw [hs] at h
      cases b with
      | false =>
        simp only [Bool.false_eq_true, if_false] at h
        injection h with h
        exact Or.inl h.symm
      | true =>
        simp only [if_true] at h
        obtain ⟨v, hnv, hne, hnm, hdom⟩ := should_add_true_elim hs
        subst hnv
        injection h with h
        exact Or.inr ⟨v, rfl, hne, hnm, hdom, h.symm⟩

/-! ## Error classification: the only exception in the frontier is the
`ValueError` of `urlparse`. -/

theorem splitTail_error_elim {s u : Str} {e : PyErr}
    (h : splitTail s u = .error e) : e = .valueError := by
  unfold splitTail at h
  by_cases hb : badBrackets (if u.take 2 = ['/', '/'] then splitnetloc2 u else ([], u)).1 = true
  · rw [if_pos hb] at h
    injection h with h
    exact h.symm
  · rw [if_neg hb] at h
    cases h

theorem urlsplitE_error_elim {u : Str} {e : PyErr}
    (h : urlsplitE u = .error e) : e = .valueError := by
  unfold urlsplitE at h
  cases hsf : splitFirst ':' u with
  | none =>
    rw [hsf] at h
    exact splitTail_error_elim h
  | some ba =>
    obtain ⟨before, after⟩ := ba
    rw [hsf] at h
    dsimp only at h
    by_cases h1 : before = []
    · rw [if_pos h1] at h
      exact splitTail_error_elim h
    rw [if_neg h1] at h
    by_cases h2 : before = ('h' :: 't' :: 't' :: 'p' :: [])
    · rw [if_pos h2] at h
      exact splitTail_error_elim h
    rw [if_neg h2] at h
    by_cases h3 : before.all isSchemeChar = true
    · rw [if_pos h3] at h
      by_cases h4 : after = [] ∨ after.any (fun c => !isDigitCh c) = true
      · rw [if_pos h4] at h
        exact splitTail_error_elim h
      · rw [if_neg h4] at h
        exact splitTail_error_elim h
    · rw [if_neg h3] at h
      exact splitTail_error_elim h

theorem urlparseE_error_elim {u : Str} {e : PyErr}
    (h : urlparseE u = .error e) : e = .valueError := by
  cases hsp : urlsplitE u with
  | error e' =>
    unfold urlparseE at h
    rw [hsp] at h
    injection h with h
    subst h
    exact urlsplitE_error_elim hsp
  | ok sr =>
    rw [urlparseE_eq_of_split hsp] at h
    by_cases hg : sr.scheme ∈ usesParams ∧ (';' : Char) ∈ sr.path
    · rw [if_pos hg] at h
      cases h
    · rw [if_neg hg] at h
      cases h

theorem normalize_error_elim {uc : UrlCollection} {u : Str} {e : PyErr}
    (h : uc.normalize u = .error e) : e = .valueError := by
  unfold UrlCollection.normalize at h
  by_cases hu0 : u = []
  · rw [if_pos hu0] at h
    cases h
  rw [if_neg hu0] at h
  dsimp only at h
  by_cases hpre : (('h' :: 't' :: 't' :: 'p' :: []) : Str).isPrefixOf
      (pyLower (if u.head? = some '/' then uc.base_url ++ u else u)) = true
  · rw [if_pos hpre] at h
    cases hp : urlparseE (pyLower (if u.head? = some '/' then uc.base_url ++ u else u)) with
    | error e' =>
      rw [hp] at h
      injection h with h
      subst h
      exact urlparseE_error_elim hp
    | ok P =>
      rw [hp] at h
      cases h
  · rw [if_neg hpre] at h
    cases h

theorem in_root_domain_error_elim {uc : UrlCollection} {u : Str} {e : PyErr}
    (h : uc.in_root_domain u = .error e) : e = .valueError := by
  unfold UrlCollection.in_root_domain at h
  cases hp : urlparseE u with
  | error e' =>
    rw [hp] at h
    injection h with h
    subst h
    exact urlparseE_error_elim hp
  | ok p =>
    rw [hp] at h
    cases h

theorem should_add_error_elim {uc : UrlCollection} {n : Option Str} {e : PyErr}
    (h : uc.should_add n = .error e) : e = .valueError := by
  cases n with
  | none =>
    unfold UrlCollection.should_add at h
    cases h
  | some v =>
    unfold UrlCollection.should_add at h
    dsimp only at h
    by_cases h0 : v = []
    · rw [if_pos h0] at h
      cases h
    rw [if_neg h0] at h
    by_cases h1 : v ∈ uc.seen_urls
    · rw [if_pos h1] at h
      cases h
    rw [if_neg h1] at h
    exact in_root_domain_error_elim h

theorem should_parse_error_elim {uc : UrlCollection} {n : Option Str} {e : PyErr}
    (h : uc.should_parse n = .error e) : e = .valueError := by
  cases n with
  | none =>
    unfold UrlCollection.should_parse at h
    cases h
  | some v =>
    unfold UrlCollection.should_parse at h
    dsimp only at h
    by_cases h0 : v = []
    · rw [if_pos h0] at h
      cases h
    rw [if_neg h0] at h
    exact in_root_domain_error_elim h

/-- `add_url` can only raise the `ValueError` coming out of `urlparse`,
never any other exception. -/
theorem add_url_error_elim {uc : UrlCollection} {url : Str} {e : PyErr}
    (h : uc.add_url url = .error e) : e = .valueError := by
  unfold UrlCollection.add_url at h
  cases hn : uc.normalize url with
  | error e' =>
    rw [hn] at h
    injection h with h
    subst h
    exact normalize_error_elim hn
  | ok n =>
    rw [hn] at h
    dsimp only at h
    cases hs : uc.should_add n with
    | error e' =>
      rw [hs] at h
      injection h with h
      subst h
      exact should_add_error_elim hs
    | ok b =>
      rw [hs] at h
      cases b with
      | false =>
        simp only [Bool.false_eq_true, if_false] at h
        cases h
      | true =>
        simp only [if_true] at h
        obtain ⟨v, hnv, _, _, _⟩ := should_add_true_elim hs
        subst hnv
        cases h

/-! ## Constructor and operation-sequence lemmas -/

theorem init_ok_elim {site : Str} {uc : UrlCollection}
    (h : UrlCollection.init site = .ok uc) :
    ∃ p, urlparseE (processedSeed site) = .ok p
      ∧ uc = ⟨p.netloc, p.scheme ++ ':' :: '/' :: '/' :: p.netloc,
              {processedSeed site}, [processedSeed site], ∅⟩ := by
  unfold UrlCollection.init at h
  dsimp only at h
  cases hp : urlparseE (processedSeed site) with
  | error e =>
    rw [hp] at h
    cases h
  | ok p =>
    rw [hp] at h
    injection h with h
    exact ⟨p, rfl, h.symm⟩

theorem add_url_ok_spec {uc uc2 : UrlCollection} {u : Str}
    (h : uc.add_url u = .ok uc2) :
    uc.seen_urls ⊆ uc2.seen_urls ∧ uc2.root = uc.root
    ∧ uc2.base_url = uc.base_url ∧ uc2.emails = uc.emails := by
  rcases add_url_cases h with h0 | ⟨v, _, _, _, _, h0⟩
  · subst h0
    exact ⟨Finset.Subset.refl _, rfl, rfl, rfl⟩
  · subst h0
    exact ⟨Finset.subset_insert _ _, rfl, rfl, rfl⟩

theorem next_spec {uc : UrlCollection} {u : Str} {uc2 : UrlCollection}
    (h : uc.next = some (u, uc2)) :
    uc2.seen_urls = uc.seen_urls ∧ uc2.root = uc.root
    ∧ uc2.base_url = uc.base_url ∧ uc2.emails = uc.emails := by
  unfold UrlCollection.next at h
  cases hw : uc.work_urls with
  | nil =>
    rw [hw] at h
    cases h
  | cons a t =>
    rw [hw] at h
    injection h with h
    injection h with h1 h2
    rw [← h2]
    exact ⟨rfl, rfl, rfl, rfl⟩

theorem applyOp_spec (uc : UrlCollection) (op : Op) :
    uc.seen_urls ⊆ (applyOp uc op).seen_urls
    ∧ (applyOp uc op).root = uc.root
    ∧ (applyOp uc op).base_url = uc.base_url := by
  cases op with
  | addUrl u =>
    simp only [applyOp]
    cases ha : uc.add_url u with
    | error e => exact ⟨Finset.Subset.refl _, rfl, rfl⟩
    | ok uc2 =>
      obtain ⟨h1, h2, h3, _⟩ := add_url_ok_spec ha
      exact ⟨h1, h2, h3⟩
  | addEmail e =>
    exact ⟨Finset.Subset.refl _, rfl, rfl⟩
  | popNext =>
    simp only [applyOp]
    cases hn : uc.next with
    | none => exact ⟨Finset.Subset.refl _, rfl, rfl⟩
    | some p =>
      obtain ⟨u, uc2⟩ := p
      obtain ⟨h1, h2, h3, _⟩ := next_spec hn
      exact ⟨by rw [h1], h2, h3⟩

theorem runOps_seen_mono (uc : UrlCollection) (ops : List Op) :
    uc.seen_urls ⊆ (runOps uc ops).seen_urls := by
  induction ops generalizing uc with
  | nil => exact Finset.Subset.refl _
  | cons op rest ih =>
    exact (applyOp_spec uc op).1.trans (ih (applyOp uc op))

theorem runOps_base (uc : UrlCollection) (ops : List Op) :
    (runOps uc ops).base_url = uc.base_url := by
  induction ops generalizing uc with
  | nil => rfl
  | cons op rest ih =>
    rw [show runOps uc (op :: rest) = runOps (applyOp uc op) rest from rfl]
    rw [ih (applyOp uc op), (applyOp_spec uc op).2.2]

theorem applyOp_seenFixed {uc : UrlCollection} (h : SeenFixed uc) (op : Op) :
    SeenFixed (applyOp uc op) := by
  cases op with
  | addUrl u =>
    simp only [applyOp]
    cases ha : uc.add_url u with
    | error e => exact h
    | ok uc2 =>
      rcases add_url_cases ha with h0 | ⟨v, hnv, _, _, _, h0⟩
      · subst h0
        exact h
      · subst h0
        intro x hx
        dsimp only at hx ⊢
        rcases Finset.mem_insert.mp hx with h1 | h1
        · subst h1
          exact normalize_result_fix hnv
        · exact h x h1
  | addEmail e => exact h
  | popNext =>
    simp only [applyOp]
    cases hn : uc.next with
    | none => exact h
    | some p =>
      obtain ⟨u, uc2⟩ := p
      obtain ⟨h1, _, h3, _⟩ := next_spec hn
      intro x hx
      dsimp only at hx ⊢
      rw [normalize_congr h3]
      exact h x (h1 ▸ hx)

theorem runOps_seenFixed {uc : UrlCollection} (h : SeenFixed uc) (ops : List Op) :
    SeenFixed (runOps uc ops) := by
  induction ops generalizing uc with
  | nil => exact h
  | cons op rest ih => exact ih (applyOp_seenFixed h op)

theorem seenFixed_inj {uc : UrlCollection} (h : SeenFixed uc) :
    ∀ a ∈ uc.seen_urls, ∀ b ∈ uc.seen_urls,
      uc.normalize a = uc.normalize b → a = b := by
  intro a ha b hb heq
  have h1 := h a ha
  have h2 := h b hb
  rw [h1, h2] at heq
  injection heq with heq
  injection heq

theorem add_url_card {uc uc2 : UrlCollection} {u : Str}
    (h : uc.add_url u = .ok uc2) :
    uc2.seen_urls = uc.seen_urls
    ∨ uc2.seen_urls.card = uc.seen_urls.card + 1 := by
  rcases add_url_cases h with h0 | ⟨v, _, _, hnm, _, h0⟩
  · subst h0
    exact Or.inl rfl
  · subst h0
    exact Or.inr (Finset.card_insert_of_not_mem hnm)

/-! ## Shape of `normalize` results -/

theorem normalize_some_elim {uc : UrlCollection} {u v : Str}
    (h : uc.normalize u = .ok (some v)) :
    ∃ P : ParseResult,
      LowerOK (pyLower (if u.head? = some '/' then uc.base_url ++ u else u))
      ∧ httpL <+: pyLower (if u.head? = some '/' then uc.base_url ++ u else u)
      ∧ urlparseE (pyLower (if u.head? = some '/' then uc.base_url ++ u else u)) = .ok P
      ∧ v = urlunparse3 P.scheme P.netloc P.path := by
  unfold UrlCollection.normalize at h
  by_cases hu0 : u = []
  · rw [if_pos hu0] at h
    cases h
  rw [if_neg hu0] at h
  dsimp only at h
  by_cases hpre : (('h' :: 't' :: 't' :: 'p' :: []) : Str).isPrefixOf
      (pyLower (if u.head? = some '/' then uc.base_url ++ u else u)) = true
  · rw [if_pos hpre] at h
    cases hp : urlparseE (pyLower (if u.head? = some '/' then uc.base_url ++ u else u)) with
    | error e =>
      rw [hp] at h
      cases h
    | ok P =>
      rw [hp] at h
      injection h with h
      injection h with h
      exact ⟨P, lowerOK_pyLower _, isPrefixOf_eq_true_iff.mp hpre, rfl, h.symm⟩
  · rw [if_neg hpre] at h
    cases h

theorem urlunparse3_mem {s n p : Str} {c : Char} (h : c ∈ urlunparse3 s n p) :
    c ∈ s ∨ c = ':' ∨ c = '/' ∨ c ∈ n ∨ c ∈ p := by
  unfold urlunparse3 at h
  by_cases h1 : n ≠ [] ∨ p.take 2 = ['/', '/']
  · rw [if_pos h1] at h
    dsimp only at h
    by_cases h2 : s ≠ []
    · rw [if_pos h2] at h
      rcases List.mem_append.mp h with hm | hm
      · exact Or.inl hm
      · rcases List.mem_cons.mp hm with hm | hm
        · exact Or.inr (Or.inl hm)
        rcases List.mem_cons.mp hm with hm | hm
        · exact Or.inr (Or.inr (Or.inl hm))
        rcases List.mem_cons.mp hm with hm | hm
        · exact Or.inr (Or.inr (Or.inl hm))
        rcases List.mem_append.mp hm with hm | hm
        · exact Or.inr (Or.inr (Or.inr (Or.inl hm)))
        · by_cases h3 : p ≠ [] ∧ p.head? ≠ some '/'
          · rw [if_pos h3] at hm
            rcases List.mem_cons.mp hm with hm | hm
            · exact Or.inr (Or.inr (Or.inl hm))
            · exact Or.inr (Or.inr (Or.inr (Or.inr hm)))
          · rw [if_neg h3] at hm
            exact Or.inr (Or.inr (Or.inr (Or.inr hm)))
    · rw [if_neg h2] at h
      rcases List.mem_cons.mp h with hm | hm
      · exact Or.inr (Or.inr (Or.inl hm))
      rcases List.mem_cons.mp hm with hm | hm
      · exact Or.inr (Or.inr (Or.inl hm))
      rcases List.mem_append.mp hm with hm | hm
      · exact Or.inr (Or.inr (Or.inr (Or.inl hm)))
      · by_cases h3 : p ≠ [] ∧ p.head? ≠ some '/'
        · rw [if_pos h3] at hm
          rcases List.mem_cons.mp hm with hm | hm
          · exact Or.inr (Or.inr (Or.inl hm))
          · exact Or.inr (Or.inr (Or.inr (Or.inr hm)))
        · rw [if_neg h3] at hm
          exact Or.inr (Or.inr (Or.inr (Or.inr hm)))
  · rw [if_neg h1] at h
    dsimp only at h
    by_cases h2 : s ≠ []
    · rw [if_pos h2] at h
      rcases List.mem_append.mp h with hm | hm
      · exact Or.inl hm
      · rcases List.mem_cons.mp hm with hm | hm
        · exact Or.inr (Or.inl hm)
        · exact Or.inr (Or.inr (Or.inr (Or.inr hm)))
    · rw [if_neg h2] at h
      exact Or.inr (Or.inr (Or.inr (Or.inr h)))

/-- Characters that survive `normalize`: no query, no fragment, and the
string is already lower-case. -/
theorem normalize_some_clean {uc : UrlCollection} {u v : Str}
    (h : uc.normalize u = .ok (some v)) :
    '?' ∉ v ∧ '#' ∉ v ∧ pyLower v = v := by
  obtain ⟨P, hlow, hpre, hp, hv⟩ := normalize_some_elim h
  have inv := urlparse_inventory hlow hpre hp
  have hfix := parse_unparse_fix hlow hpre hp
  refine ⟨?_, ?_, ?_⟩
  · intro hm
    rw [hv] at hm
    rcases urlunparse3_mem hm with hm | hm | hm | hm | hm
    · rcases inv.schemeCase with ⟨_, hsch, _, _, _⟩ | ⟨hs0, _, _, _, _⟩
      · have := hsch _ hm
        revert this
        decide
      · rw [hs0] at hm
        cases hm
    · exact absurd hm (by decide)
    · exact absurd hm (by decide)
    · have := inv.netOK _ hm
      revert this
      decide
    · exact inv.noQuest hm
  · intro hm
    rw [hv] at hm
    rcases urlunparse3_mem hm with hm | hm | hm | hm | hm
    · rcases inv.schemeCase with ⟨_, hsch, _, _, _⟩ | ⟨hs0, _, _, _, _⟩
      · have := hsch _ hm
        revert this
        decide
      · rw [hs0] at hm
        cases hm
    · exact absurd hm (by decide)
    · exact absurd hm (by decide)
    · have := inv.netOK _ hm
      revert this
      decide
    · exact inv.noHash hm
  · rw [hv]
    exact pyLower_eq_self hfix.1

/-- An accepted `normalize` result re-parses with empty params, query and
fragment, and is exactly the `urlunparse` reassembly of its own scheme,
netloc and path: only those three components survive. -/
theorem normalize_reparse_clean {uc : UrlCollection} {u v : Str}
    (h : uc.normalize u = .ok (some v)) :
    ∃ P : ParseResult, urlparseE v = .ok P
      ∧ P.params = [] ∧ P.query = [] ∧ P.fragment = []
      ∧ v = urlunparse3 P.scheme P.netloc P.path := by
  obtain ⟨P0, hlow, hpre, hp, hv⟩ := normalize_some_elim h
  obtain ⟨_, _, P2, hparse2, hpar, hq, hf, hunp2⟩ := parse_unparse_fix hlow hpre hp
  subst hv
  exact ⟨P2, hparse2, hpar, hq, hf, hunp2.symm⟩

/-! ## Driver lemmas: `add_email` is never called by the crawl loop -/

theorem foldlM_add_url_spec {links : List Str} {uc uc2 : UrlCollection}
    (h : links.foldlM UrlCollection.add_url uc = .ok uc2) :
    uc2.emails = uc.emails := by
  induction links generalizing uc with
  | nil =>
    injection h with h
    rw [← h]
  | cons l rest ih =>
    rw [List.foldlM_cons] at h
    cases ha : uc.add_url l with
    | error e =>
      rw [ha] at h
      cases h
    | ok uc1 =>
      rw [ha] at h
      have h2 : rest.foldlM UrlCollection.add_url uc1 = .ok uc2 := h
      rw [ih h2]
      exact (add_url_ok_spec ha).2.2.2

theorem load_and_parse_emails {uc uc2 : UrlCollection} {o : FetchOutcome}
    {r : Option (List Str)}
    (h : load_and_parse uc o = .ok (uc2, r)) : uc2.emails = uc.emails := by
  cases o with
  | fail =>
    unfold load_and_parse at h
    injection h with h
    injection h with h1 h2
    rw [← h1]
  | page finalUrl links body =>
    unfold load_and_parse at h
    dsimp only at h
    cases hn : uc.normalize finalUrl with
    | error e =>
      rw [hn] at h
      cases h
    | ok n =>
      rw [hn] at h
      dsimp only at h
      cases hs : uc.should_parse n with
      | error e =>
        rw [hs] at h
        cases h
      | ok b =>
        rw [hs] at h
        dsimp only at h
        cases b with
        | false =>
          simp only [Bool.false_eq_true, if_false] at h
          injection h with h
          injection h with h1 h2
          rw [← h1]
        | true =>
          simp only [if_true] at h
          cases hf : links.foldlM UrlCollection.add_url uc with
          | error e =>
            rw [hf] at h
            cases h
          | ok uc3 =>
            rw [hf] at h
            injection h with h
            injection h with h1 h2
            rw [← h1]
            exact foldlM_add_url_spec hf

theorem crawlLoop_emails {oracle : Str → FetchOutcome} {fuel : Nat}
    {uc ucF : UrlCollection} {acc results : List (Option (List Str))}
    (h : crawlLoop oracle fuel uc acc = some (.ok (ucF, results))) :
    ucF.emails = uc.emails := by
  induction fuel generalizing uc acc with
  | zero => cases h
  | succ n ih =>
    unfold crawlLoop at h
    cases hw : uc.work_urls with
    | nil =>
      rw [hw] at h
      injection h with h
      injection h with h
      injection h with h1 h2
      rw [← h1]
    | cons u rest =>
      rw [hw] at h
      dsimp only at h
      cases hl : load_and_parse { uc with work_urls := rest } (oracle u) with
      | error e =>
        rw [hl] at h
        injection h with h
        cases h
      | ok p =>
        obtain ⟨uc2, r⟩ := p
        rw [hl] at h
        have := ih h
        rw [this, load_and_parse_emails hl]

/-- The crawl driver of `main` never touches the frontier's `emails` set:
whenever a run completes (with or without a final `reduce` error), the
final frontier's `emails` is still empty. -/
theorem mainRun_emails_empty {site : Str} {oracle : Str → FetchOutcome}
    {fuel : Nat} {v : EmailsVal} {ucF : UrlCollection}
    (h : mainRun site oracle fuel = some (.ok (v, ucF))) :
    ucF.emails = ∅ := by
  unfold mainRun at h
  cases hi : UrlCollection.init site with
  | error e =>
    rw [hi] at h
    injection h with h
    cases h
  | ok uc0 =>
    rw [hi] at h
    dsimp only at h
    cases hc : crawlLoop oracle fuel uc0 [] with
    | none =>
      rw [hc] at h
      cases h
    | some res =>
      rw [hc] at h
      cases res with
      | error e =>
        injection h with h
        cases h
      | ok pr =>
        obtain ⟨ucF', results⟩ := pr
        dsimp only at h
        cases hr : reduceUnion results with
        | error e =>
          rw [hr] at h
          injection h with h
          cases h
        | ok v' =>
          rw [hr] at h
          simp only [Option.some.injEq, Except.ok.injEq, Prod.mk.injEq] at h
          obtain ⟨h1, h2⟩ := h
          subst h2
          obtain ⟨p, hp, huc0⟩ := init_ok_elim hi
          have he0 : uc0.emails = ∅ := by
            rw [huc0]
          rw [crawlLoop_emails hc]
          exact he0

/-! ## The claims -/

/-- C1, counterexample: the crawl driver never feeds found email strings
into the frontier via `add_email`, and the value the run returns is not
the frontier's `emails` set.  On a one-page site whose body contains
`a@b.com`, the run returns the raw list `[a@b.com]` (Python's `reduce`
over a single element) while the final frontier's `emails` set is empty —
and the returned collection is visibly different from that empty set. -/
theorem C1_counterexample :
    mainRun (("example.com").toList) oracleOnePage 5
      = some (.ok (.raw (some [("a@b.com").toList]),
          ⟨("example.com").toList, ("http://example.com").toList,
           {("http://example.com").toList}, [], ∅⟩))
    ∧ (⟨("example.com").toList, ("http://example.com").toList,
        {("http://example.com").toList}, [], ∅⟩ : UrlCollection).emails = ∅
    ∧ ([("a@b.com").toList].toFinset : Finset Str) ≠ (∅ : Finset Str) := by
  refine ⟨by decide, rfl, by decide⟩

/-- C1, amended: the crawl driver never calls `add_email`; whatever a run
returns, the final frontier's accumulated `emails` set is still empty, so
the run's result is the `reduce`-union of the per-page email lists, not
`frontier.emails`. -/
theorem C1_amended {site : Str} {oracle : Str → FetchOutcome} {fuel : Nat}
    {v : EmailsVal} {ucF : UrlCollection}
    (h : mainRun site oracle fuel = some (.ok (v, ucF))) :
    ucF.emails = ∅ :=
  mainRun_emails_empty h

/-- C1, witness: the amended statement applies to a concrete completed run. -/
theorem C1_witness :
    mainRun (("x.com").toList) (fun _ => .fail) 3
      = some (.ok (.raw (some []),
          ⟨("x.com").toList, ("http://x.com").toList,
           {("http://x.com").toList}, [], ∅⟩))
    ∧ (⟨("x.com").toList, ("http://x.com").toList,
        {("http://x.com").toList}, [], ∅⟩ : UrlCollection).emails = ∅ := by
  have h : mainRun (("x.com").toList) (fun _ => .fail) 3
      = some (.ok (.raw (some []),
          ⟨("x.com").toList, ("http://x.com").toList,
           {("http://x.com").toList}, [], ∅⟩)) := by decide
  exact ⟨h, C1_amended h⟩

/-- C2: the claim is right and the code is wrong.  When a page loads but
its body lookup raises `WebDriverException`, `parse_emails` swallows the
exception and returns `None`; `main`'s
`reduce(lambda x, y: set(x).union(set(y)), ...)` then evaluates
`set(None)` and the whole crawl dies with a `TypeError` instead of
completing with the emails accumulated so far. -/
theorem C2_crash :
    mainRun (("example.com").toList) oracleBodyFail 5
      = some (.error .typeError) := by decide

/-- C3, counterexample: from construction the `seen` set holds the
processed seed — seed with query string kept — not the value `normalize`
would produce for it: `normalize` strips `?x=1`, and that normalized form
is not in `seen`. -/
theorem C3_counterexample :
    UrlCollection.init (("http://example.com/p?x=1").toList) = .ok ucQuery
    ∧ ucQuery.normalize (("http://example.com/p?x=1").toList)
        = .ok (some (("http://example.com/p").toList))
    ∧ (("http://example.com/p").toList) ∉ ucQuery.seen_urls := by
  refine ⟨by decide, by decide, by decide⟩

/-- C3, amended: from construction and after every subsequent operation,
`seen` contains the constructor's processed seed (stripped, lower-cased,
`http://`-prefixed when needed) — which equals the normalized seed only
when the seed carries no query, fragment or params. -/
theorem C3_amended {site : Str} {uc0 : UrlCollection} {ops : List Op}
    (h : UrlCollection.init site = .ok uc0) :
    processedSeed site ∈ (runOps uc0 ops).seen_urls := by
  obtain ⟨p, hp, huc0⟩ := init_ok_elim h
  have h0 : processedSeed site ∈ uc0.seen_urls := by
    rw [huc0]
    exact Finset.mem_singleton_self _
  exact runOps_seen_mono uc0 ops h0

/-- C3, witness: the amended invariant at a concrete seed and operation
sequence. -/
theorem C3_witness :
    UrlCollection.init (("jana.com").toList) = .ok ucJana
    ∧ processedSeed (("jana.com").toList)
        ∈ (runOps ucJana
            [Op.addUrl (("http://jana.com/a").toList), Op.popNext]).seen_urls := by
  have h : UrlCollection.init (("jana.com").toList) = .ok ucJana := by decide
  exact ⟨h, C3_amended h⟩

/-- C4, counterexample: with seed `http://example.com/p?x=1`, re-adding
the seed URL puts its normalized form next to the raw seed: `seen` then
holds two distinct strings that normalize to the same value. -/
theorem C4_counterexample :
    UrlCollection.init (("http://example.com/p?x=1").toList) = .ok ucQuery
    ∧ ucQuery.add_url (("http://example.com/p?x=1").toList) = .ok ucQuery2
    ∧ (("http://example.com/p?x=1").toList) ∈ ucQuery2.seen_urls
    ∧ (("http://example.com/p").toList) ∈ ucQuery2.seen_urls
    ∧ (("http://example.com/p?x=1").toList) ≠ (("http://example.com/p").toList)
    ∧ ucQuery2.normalize (("http://example.com/p?x=1").toList)
        = ucQuery2.normalize (("http://example.com/p").toList) := by
  refine ⟨by decide, by decide, by decide, by decide, by decide, by decide⟩

/-- C4, amended: for every seed and every sequence of operations, each
`add_url` call that admits its argument grows `|seen|` by exactly 1 —
unconditionally; and, provided the processed seed is a fixed point of
`normalize` (true whenever the seed has no query/fragment/params), no two
distinct strings in `seen` ever normalize to the same value. -/
theorem C4_amended {site : Str} {uc0 : UrlCollection} {ops : List Op}
    (h : UrlCollection.init site = .ok uc0) :
    (∀ (u : Str) (uc2 : UrlCollection), (runOps uc0 ops).add_url u = .ok uc2 →
        uc2.seen_urls = (runOps uc0 ops).seen_urls
        ∨ uc2.seen_urls.card = (runOps uc0 ops).seen_urls.card + 1)
    ∧ (uc0.normalize (processedSeed site) = .ok (some (processedSeed site)) →
        ∀ a ∈ (runOps uc0 ops).seen_urls, ∀ b ∈ (runOps uc0 ops).seen_urls,
          (runOps uc0 ops).normalize a = (runOps uc0 ops).normalize b → a = b) := by
  refine ⟨fun u uc2 ha => add_url_card ha, fun hfix => ?_⟩
  have hsf : SeenFixed uc0 := by
    intro x hx
    obtain ⟨p, hp, huc0⟩ := init_ok_elim h
    rw [huc0] at hx
    simp only [Finset.mem_singleton] at hx
    subst hx
    exact hfix
  exact seenFixed_inj (runOps_seenFixed hsf ops)

/-- C4, witness: the amended statement at the seed `jana.com` and the
empty operation sequence, exercised by one admitting `add_url` call. -/
theorem C4_witness :
    UrlCollection.init (("jana.com").toList) = .ok ucJana
    ∧ (runOps ucJana []).add_url (("http://jana.com/b").toList) = .ok ucJana2
    ∧ (ucJana2.seen_urls = (runOps ucJana []).seen_urls
       ∨ ucJana2.seen_urls.card = (runOps ucJana []).seen_urls.card + 1) := by
  have h1 : UrlCollection.init (("jana.com").toList) = .ok ucJana := by decide
  have h3 : (runOps ucJana []).add_url (("http://jana.com/b").toList)
      = .ok ucJana2 := by decide
  exact ⟨h1, h3, (C4_amended h1).1 _ _ h3⟩

/-- C5, counterexample: `normalize` only tests the literal four-character
prefix `http`; `httpx://example.com/` does not start with a recognized
`http`/`https` scheme, yet `normalize` accepts it unchanged instead of
rejecting it. -/
theorem C5_counterexample :
    ¬ startsRecognizedScheme (pyLower (("httpx://example.com/").toList))
    ∧ ucEx.normalize (("httpx://example.com/").toList)
        = .ok (some (("httpx://example.com/").toList)) := by
  refine ⟨by decide, by decide⟩

/-- C5, amended: `normalize` returns the invalid result exactly for the
inputs that are empty or, after relative-link resolution and
lower-casing, do not start with the literal character sequence `http`. -/
theorem C5_amended (uc : UrlCollection) (u : Str) :
    uc.normalize u = .ok none
    ↔ (u = []
       ∨ ¬ httpL <+: pyLower (if u.head? = some '/' then uc.base_url ++ u else u)) := by
  constructor
  · intro h
    by_cases hu0 : u = []
    · exact Or.inl hu0
    right
    intro hpre
    unfold UrlCollection.normalize at h
    rw [if_neg hu0] at h
    dsimp only at h
    rw [if_pos (isPrefixOf_eq_true_iff.mpr hpre)] at h
    cases hp : urlparseE (pyLower (if u.head? = some '/' then uc.base_url ++ u else u)) with
    | error e =>
      rw [hp] at h
      cases h
    | ok P =>
      rw [hp] at h
      dsimp only at h
      injection h with h
      cases h
  · intro h
    rcases h with h0 | hnp
    · unfold UrlCollection.normalize
      rw [if_pos h0]
    · unfold UrlCollection.normalize
      by_cases hu0 : u = []
      · rw [if_pos hu0]
      · rw [if_neg hu0]
        dsimp only
        rw [if_neg (fun hc => hnp (isPrefixOf_eq_true_iff.mp hc))]

/-- C5, witness: the amended characterization rejects a concrete `ftp` URL. -/
theorem C5_witness :
    ucEx.normalize (("ftp://x.com/").toList) = .ok none := by
  exact (C5_amended ucEx (("ftp://x.com/").toList)).mpr (by decide)

/-- C6: `in_root_domain` answers `true` exactly when the parsed netloc of
the URL ends (as a raw string suffix) with `root`; and every URL that
`add_url` newly inserts into `seen` has a netloc ending with `root`. -/
theorem C6_domain (uc : UrlCollection) :
    (∀ url p, urlparseE url = .ok p →
        (uc.in_root_domain url = .ok true ↔ uc.root.isSuffixOf p.netloc = true))
    ∧ ∀ (url : Str) (uc2 : UrlCollection) (x : Str),
        uc.add_url url = .ok uc2 → x ∈ uc2.seen_urls → x ∉ uc.seen_urls →
        ∃ p, urlparseE x = .ok p ∧ uc.root.isSuffixOf p.netloc = true := by
  constructor
  · intro url p hp
    unfold UrlCollection.in_root_domain
    rw [hp]
    dsimp only
    constructor
    · intro h
      exact Except.ok.inj h
    · intro h
      rw [h]
  · intro url uc2 x ha hx hnx
    rcases add_url_cases ha with h0 | ⟨v, hnv, hne, hnm, hdom, h0⟩
    · subst h0
      exact absurd hx hnx
    · subst h0
      dsimp only at hx
      rcases Finset.mem_insert.mp hx with h1 | h1
      · subst h1
        exact in_root_domain_true_elim hdom
      · exact absurd h1 hnx

/-- C6, witness: the suffix characterization at a concrete subdomain URL. -/
theorem C6_witness :
    urlparseE (("http://sub.example.com/x").toList)
      = .ok ⟨("http").toList, ("sub.example.com").toList, ("/x").toList, [], [], []⟩
    ∧ (ucEx.in_root_domain (("http://sub.example.com/x").toList) = .ok true
        ↔ ucEx.root.isSuffixOf (("sub.example.com").toList) = true) := by
  have h : urlparseE (("http://sub.example.com/x").toList)
      = .ok ⟨("http").toList, ("sub.example.com").toList, ("/x").toList, [], [], []⟩ := by
    decide
  exact ⟨h, (C6_domain ucEx).1 _ _ h⟩

/-- C7: `normalize` is idempotent — applying `normalize` to the result of
`normalize` (with `None` propagating as Python's falsy check makes it)
changes nothing, errors included. -/
theorem C7_normalize_idempotent (uc : UrlCollection) (u : Str) :
    (uc.normalize u).bind (normalizeOpt uc) = uc.normalize u :=
  normalize_bind_idem uc u

/-- C8: `normalize` lower-cases and strips query, fragment and params so
that only scheme, host and path survive: the documented example evaluates
exactly as the spec says, and in general every accepted result is its own
lower-casing, contains no `?` and no `#`, and re-parses with empty
params, query and fragment — it is exactly the reassembly of its own
scheme, netloc and path. -/
theorem C8_strip_query_fragment :
    ucEx.normalize (("HTTPS://Example.com/Path?x=1#frag").toList)
      = .ok (some (("https://example.com/path").toList))
    ∧ ∀ (uc : UrlCollection) (u v : Str), uc.normalize u = .ok (some v) →
        ('?' ∉ v ∧ '#' ∉ v ∧ pyLower v = v)
        ∧ ∃ P : ParseResult, urlparseE v = .ok P
            ∧ P.params = [] ∧ P.query = [] ∧ P.fragment = []
            ∧ v = urlunparse3 P.scheme P.netloc P.path := by
  refine ⟨by decide, ?_⟩
  intro uc u v h
  exact ⟨normalize_some_clean h, normalize_reparse_clean h⟩

/-- C8, witness: the general clean-output part at a concrete URL carrying
a params segment, a query and a fragment, all of which are stripped. -/
theorem C8_witness :
    ucEx.normalize (("http://example.com/a;p?x=1#f").toList)
      = .ok (some (("http://example.com/a").toList))
    ∧ (('?' ∉ (("http://example.com/a").toList)
        ∧ '#' ∉ (("http://example.com/a").toList)
        ∧ pyLower (("http://example.com/a").toList)
            = ("http://example.com/a").toList)
       ∧ ∃ P : ParseResult, urlparseE (("http://example.com/a").toList) = .ok P
           ∧ P.params = [] ∧ P.query = [] ∧ P.fragment = []
           ∧ ("http://example.com/a").toList
               = urlunparse3 P.scheme P.netloc P.path) := by
  have h : ucEx.normalize (("http://example.com/a;p?x=1#f").toList)
      = .ok (some (("http://example.com/a").toList)) := by decide
  exact ⟨h, C8_strip_query_fragment.2 _ _ _ h⟩

/-- C9, counterexample: `add_url` is not total — an unmatched `[` in the
authority makes `urlparse` raise `ValueError`, which escapes `add_url`. -/
theorem C9_counterexample :
    ucEx.add_url (("http://[a").toList) = .error .valueError := by decide

/-- C9, amended: `add_url` can only fail with `urlparse`'s `ValueError`
(an unmatched bracket in the authority); on every non-raising input it is
atomic — either the frontier is returned unchanged (invalid, duplicate or
out-of-domain URL) or the normalized URL is inserted into both `seen` and
`pending` and nothing else changes. -/
theorem C9_amended :
    (∀ (uc : UrlCollection) (u : Str) (e : PyErr),
        uc.add_url u = .error e → e = .valueError)
    ∧ ∀ (uc uc2 : UrlCollection) (u : Str), uc.add_url u = .ok uc2 →
        uc2 = uc
        ∨ ∃ v, uc.normalize u = .ok (some v) ∧ v ∉ uc.seen_urls
            ∧ uc2.seen_urls = insert v uc.seen_urls
            ∧ (∀ x, x ∈ uc2.work_urls ↔ (x ∈ uc.work_urls ∨ x = v))
            ∧ uc2.root = uc.root ∧ uc2.base_url = uc.base_url
            ∧ uc2.emails = uc.emails := by
  constructor
  · exact fun uc u e h => add_url_error_elim h
  · intro uc uc2 u h
    rcases add_url_cases h with h0 | ⟨v, hnv, hne, hnm, hdom, h0⟩
    · exact Or.inl h0
    · subst h0
      refine Or.inr ⟨v, hnv, hnm, rfl, ?_, rfl, rfl, rfl⟩
      intro x
      dsimp only
      by_cases hw : v ∈ uc.work_urls
      · rw [if_pos hw]
        constructor
        · exact fun hx => Or.inl hx
        · rintro (hx | hx)
          · exact hx
          · subst hx
            exact hw
      · rw [if_neg hw]
        simp [List.mem_append]

/-- C9, witness: the error classification applied at a concrete raising
input. -/
theorem C9_witness :
    ucEx.add_url (("http://[b").toList) = .error .valueError
    ∧ PyErr.valueError = PyErr.valueError := by
  have h : ucEx.add_url (("http://[b").toList) = .error .valueError := by decide
  exact ⟨h, C9_amended.1 ucEx (("http://[b").toList) .valueError h⟩

/-- C10: `normalize` does not canonicalize an absent path against `/`:
the slash-less and slashed site roots are both fixed points of
`normalize`, are distinct dedup keys, and after `add_url` of the slashed
form from a fresh `example.com` frontier both sit in `seen` (and the new
one in `pending`), so both can be fetched. -/
theorem C10_slash_distinct :
    ucEx.normalize (("http://example.com").toList)
      = .ok (some (("http://example.com").toList))
    ∧ ucEx.normalize (("http://example.com/").toList)
      = .ok (some (("http://example.com/").toList))
    ∧ ("http://example.com").toList ≠ ("http://example.com/").toList
    ∧ ucEx.add_url (("http://example.com/").toList) = .ok ucExSlash
    ∧ ("http://example.com").toList ∈ ucExSlash.seen_urls
    ∧ ("http://example.com/").toList ∈ ucExSlash.seen_urls
    ∧ ("http://example.com/").toList ∈ ucExSlash.work_urls := by
  refine ⟨by decide, by decide, by decide, by decide, by decide, by decide, by decide⟩
